import Mathlib

/-!
Verification of the bounded-window lexicographic (arrival time, wait time)
search implemented in `outputs/2122_D.cpp`.

The program reads a graph with `n` nodes and `m` undirected edges, then runs a
priority-queue search over states `(total_time, wait_time, u)`.  At each tick an
agent at node `u` may wait (time+1, wait+1) or move along the single incident
edge at position `total_time mod deg(u)` of `u`'s incident-edge list in input
order (time+1, wait unchanged).  Per node it tracks the minimum arrival time
`min_t` and, for offsets `0 ≤ dt < C` above it, the minimum wait `min_w[u][dt]`.
The answer is the lexicographically minimal `(time, wait)` pair recorded at
node `n`, or `(INF, INF)` when the search never reaches it.

All definitions below are transcribed from the C++ source; the walk semantics
(`wstep`, `wrun`) formalises the specification's description of the admissible
wait/move walks, used to compare the program's output against the true set of
walks.
-/

namespace TwoOneTwoTwoD

/-- `INF = 10^18`, the sentinel used by the program (`const long long INF = 1e18`). -/
def INF : Int := 1000000000000000000

/-- The bounded time-delta window (`const int C = 600`). -/
def C : Int := 600

/-- Search state carried on the priority queue (`struct State`). -/
structure St where
  total_time : Int
  wait_time : Int
  u : Nat
deriving DecidableEq, Repr

/-- The ordering used by the priority queue: lexicographic on
`(total_time, wait_time)`, smaller first (`operator>` with `greater<State>`).
`stLe a b` holds when `a` is popped no later than `b`. -/
def stLe (a b : St) : Bool :=
  if a.total_time < b.total_time then true
  else if b.total_time < a.total_time then false
  else decide (a.wait_time ≤ b.wait_time)

/-- Extract a minimal element (w.r.t. `stLe`) from the queue, together with the
remaining elements.  Ties are broken towards the front of the list; the C++
binary heap breaks ties in an unspecified but irrelevant way, since states with
equal keys do not interact (all successors have strictly larger keys). -/
def popMin : List St → Option (St × List St)
  | [] => none
  | x :: xs =>
    match popMin xs with
    | none => some (x, [])
    | some (m, rest) => if stLe x m then some (x, xs) else some (m, x :: rest)

/-- Adjacency build-up: append `y` to the incident list of `x`
(`adj_input_order[x].push_back(y)`). -/
def pushTo (a : Nat → List Nat) (x y : Nat) : Nat → List Nat :=
  fun z => if z = x then a x ++ [y] else a z

/-- The incident-neighbour lists in original input order
(`adj_input_order`, lines 31–36): each input edge `(u,v)` appends `v` to `u`'s
list and then `u` to `v`'s list. -/
def adj_input_order (edges : List (Nat × Nat)) : Nat → List Nat :=
  edges.foldl (fun a e => pushTo (pushTo a e.1 e.2) e.2 e.1) (fun _ => [])

/-- Per-edge contribution of one input edge to the incident list of `x`. -/
def edgeContrib (e : Nat × Nat) (x : Nat) : List Nat :=
  (if e.1 = x then [e.2] else []) ++ (if e.2 = x then [e.1] else [])

/-- The incident-neighbour list of `x` as the in-order concatenation of the
contributions of each input edge; proved equal to `adj_input_order` below. -/
def nbrs (edges : List (Nat × Nat)) (x : Nat) : List Nat :=
  edges.foldr (fun e acc => edgeContrib e x ++ acc) []

/-- `deg[i] = adj_input_order[i].size()` (line 41). -/
def deg (edges : List (Nat × Nat)) (u : Nat) : Nat :=
  (adj_input_order edges u).length

/-- Attach 1-based edge indices (`edge_idx`, lines 42–46). -/
def withIdx : List Nat → Nat → List (Nat × Nat)
  | [], _ => []
  | x :: xs, i => (x, i) :: withIdx xs (i + 1)

/-- `adj[i]`: list of `(neighbour, edge index)` pairs, indices starting at 1. -/
def adj (edges : List (Nat × Nat)) (u : Nat) : List (Nat × Nat) :=
  withIdx (adj_input_order edges u) 1

/-- The mutable search state of `solve`: frontier, `min_t`, `min_w`, and the
tentative answer.  The tables are total functions; the C++ vectors have extents
`n+1` and `C`, and the access-log theorems show all accesses stay in range. -/
structure SS where
  pq : List St
  min_t : Nat → Int
  min_w : Nat → Int → Int
  ans : Int × Int

/-- Pointwise update of `min_t`. -/
def updT (f : Nat → Int) (u : Nat) (x : Int) : Nat → Int :=
  fun v => if v = u then x else f v

/-- Pointwise update of `min_w`. -/
def updW (f : Nat → Int → Int) (u : Nat) (d : Int) (x : Int) : Nat → Int → Int :=
  fun v e => if v = u ∧ e = d then x else f v e

/-- Option 1: Wait (lines 80–90).  `dt` is the offset of the popped state.
Returns the new search state together with the `min_w` indices accessed. -/
def waitStep (t w : Int) (u : Nat) (dt : Int) (s : SS) : SS × List (Nat × Int) :=
  if t + 1 < s.min_t u + C then
    if w + 1 < s.min_w u (dt + 1) then
      ({ s with pq := ⟨t + 1, w + 1, u⟩ :: s.pq,
                min_w := updW s.min_w u (dt + 1) (w + 1) }, [(u, dt + 1)])
    else (s, [(u, dt + 1)])
  else (s, [])

/-- Option 2: Move (lines 92–120).  Selects the incident edge with 1-based
index `(t % deg u) + 1` by linear search over `adj u`, then either resets
`min_t v` (when strictly earlier than the recorded minimum) or updates the
bounded-offset slot.  Returns the accessed `min_w` indices. -/
def moveStep (edges : List (Nat × Nat)) (t w : Int) (u : Nat) (s : SS) :
    SS × List (Nat × Int) :=
  if 0 < deg edges u then
    let edge_idx_to_take : Int := t % (deg edges u : Int) + 1
    match (adj edges u).find? (fun e => ((e.2 : Int) == edge_idx_to_take)) with
    | none => (s, [])
    | some e =>
      let v := e.1
      if t + 1 < s.min_t v then
        ({ s with pq := ⟨t + 1, w, v⟩ :: s.pq,
                  min_t := updT s.min_t v (t + 1),
                  min_w := updW s.min_w v 0 w }, [(v, 0)])
      else
        let dtn := t + 1 - s.min_t v
        if dtn < C then
          if w < s.min_w v dtn then
            ({ s with pq := ⟨t + 1, w, v⟩ :: s.pq,
                      min_w := updW s.min_w v dtn w }, [(v, dtn)])
          else (s, [(v, dtn)])
        else (s, [])
  else (s, [])

/-- The expansion of a popped state that survived all pruning checks:
first the wait option, then the move option (lines 80–120). -/
def expandStep (edges : List (Nat × Nat)) (t w : Int) (u : Nat) (dt : Int)
    (s : SS) : SS × List (Nat × Int) :=
  let r1 := waitStep t w u dt s
  let r2 := moveStep edges t w u r1.1
  (r2.1, r1.2 ++ r2.2)

/-- The answer update at the target node (lines 72–76): replace the tentative
answer by `(t, w)` exactly when the popped state is at the target and is
lexicographically smaller. -/
def ansUpd (n : Nat) (a : Int × Int) (t w : Int) (u : Nat) : Int × Int :=
  if u = n ∧ (t < a.1 ∨ (t = a.1 ∧ w < a.2)) then (t, w) else a

/-- Prepend one recorded `min_w` access to an iteration result. -/
def tagAccess (p : Nat × Int) (r : SS × List (Nat × Int)) : SS × List (Nat × Int) :=
  (r.1, p :: r.2)

/-- One iteration of the main `while (!pq.empty())` loop (lines 60–121),
including all pruning checks, the answer update at the target, and the
early-exit check `t > ans.first`.  Also returns the list of `(node, offset)`
indices at which `min_w` was read or written during this iteration. -/
def stepA (n : Nat) (edges : List (Nat × Nat)) (s : SS) : SS × List (Nat × Int) :=
  match popMin s.pq with
  | none => (s, [])
  | some (st, rest) =>
    if s.min_t st.u = INF ∨ s.min_t st.u + C < st.total_time then
      ({ s with pq := rest }, [])
    else if C ≤ st.total_time - s.min_t st.u then
      ({ s with pq := rest }, [])
    else if s.min_w st.u (st.total_time - s.min_t st.u) < st.wait_time then
      ({ s with pq := rest }, [(st.u, st.total_time - s.min_t st.u)])
    else if (ansUpd n s.ans st.total_time st.wait_time st.u).1 < st.total_time then
      ({ s with pq := rest, ans := ansUpd n s.ans st.total_time st.wait_time st.u },
        [(st.u, st.total_time - s.min_t st.u)])
    else
      tagAccess (st.u, st.total_time - s.min_t st.u)
        (expandStep edges st.total_time st.wait_time st.u
          (st.total_time - s.min_t st.u)
          { s with pq := rest, ans := ansUpd n s.ans st.total_time st.wait_time st.u })

/-- One iteration, state part only. -/
def step (n : Nat) (edges : List (Nat × Nat)) (s : SS) : SS :=
  (stepA n edges s).1

/-- The main loop with explicit fuel; `runLoop` stops as soon as the frontier
is empty, so any sufficiently large fuel yields the program's final state. -/
def runLoop (n : Nat) (edges : List (Nat × Nat)) : Nat → SS → SS
  | 0, s => s
  | k + 1, s => if s.pq.isEmpty then s else runLoop n edges k (step n edges s)

/-- Initial search state (lines 49–58): seed `(0, 0, 1)`, `min_t[1] = 0`,
`min_w[1][0] = 0`, all other table entries `INF`, answer `(INF, INF)`. -/
def initSS : SS :=
  { pq := [⟨0, 0, 1⟩],
    min_t := updT (fun _ => INF) 1 0,
    min_w := updW (fun _ _ => INF) 1 0 0,
    ans := (INF, INF) }

/-- Fuel that dominates the number of loop iterations for any run. -/
def fuelBound (n : Nat) : Nat :=
  (n + 1) * 600 * INF.toNat * 3 + (n + 1) * INF.toNat * 3 + 3

/-- The pair printed by `solve` (line 124): the final tentative answer. -/
def output (n : Nat) (edges : List (Nat × Nat)) : Int × Int :=
  (runLoop n edges (fuelBound n) initSS).ans

/-- The search state after `k` iterations. -/
def iter (n : Nat) (edges : List (Nat × Nat)) (k : Nat) : SS :=
  runLoop n edges k initSS

/-- The `min_w` indices accessed during iteration `k+1` of the loop. -/
def accessesAt (n : Nat) (edges : List (Nat × Nat)) (k : Nat) : List (Nat × Int) :=
  (stepA n edges (iter n edges k)).2

/-! ## Walk semantics

Formalisation of the specification's wait/move dynamics: at integer tick `t`
the agent at node `u` either waits one unit (time+1, wait+1) or moves along
the single edge `adj[u][t mod deg(u)]` (time+1, wait unchanged). -/

/-- An action of the agent at one tick. -/
inductive Act
  | wait
  | move
deriving DecidableEq, Repr

/-- One tick of the walk dynamics. -/
def wstep (edges : List (Nat × Nat)) (st : St) : Act → Option St
  | .wait => some ⟨st.total_time + 1, st.wait_time + 1, st.u⟩
  | .move =>
    if 0 < (nbrs edges st.u).length then
      some ⟨st.total_time + 1, st.wait_time,
        (nbrs edges st.u).getD (st.total_time % ((nbrs edges st.u).length : Int)).toNat 0⟩
    else none

/-- Run a list of actions from a given state. -/
def wrunFrom (edges : List (Nat × Nat)) (s0 : St) (acts : List Act) : Option St :=
  acts.foldl (fun os a => os.bind (fun s => wstep edges s a)) (some s0)

/-- Run a list of actions from the start state `(node 1, time 0, wait 0)`. -/
def wrun (edges : List (Nat × Nat)) (acts : List Act) : Option St :=
  wrunFrom edges ⟨0, 0, 1⟩ acts

/-- A search state is realised by some admissible walk from the source. -/
def ReachSt (edges : List (Nat × Nat)) (st : St) : Prop :=
  ∃ acts, wrun edges acts = some st

/-- Node `tgt` is reachable from node 1 by some wait/move walk. -/
def Reachable (edges : List (Nat × Nat)) (tgt : Nat) : Prop :=
  ∃ st, ReachSt edges st ∧ st.u = tgt

/-- Lexicographic order on `(time, wait)` pairs. -/
def lexLe (p q : Int × Int) : Prop :=
  p.1 < q.1 ∨ (p.1 = q.1 ∧ p.2 ≤ q.2)

/-- `p` is the lexicographically minimal `(arrival time, total wait)` pair over
all walks from node 1 to node `tgt`. -/
def IsLexMinPair (edges : List (Nat × Nat)) (tgt : Nat) (p : Int × Int) : Prop :=
  (∃ st, ReachSt edges st ∧ st.u = tgt ∧ (st.total_time, st.wait_time) = p) ∧
  (∀ st, ReachSt edges st → st.u = tgt → lexLe p (st.total_time, st.wait_time))

/-- Well-formed input: every edge endpoint lies in `1..n`. -/
@[reducible] def WFE (n : Nat) (edges : List (Nat × Nat)) : Prop :=
  ∀ e ∈ edges, 1 ≤ e.1 ∧ e.1 ≤ n ∧ 1 ≤ e.2 ∧ e.2 ≤ n

/-- Well-formedness of one frontier state with respect to the `min_t` table. -/
def StOK (n : Nat) (edges : List (Nat × Nat)) (mt : Nat → Int) (st : St) : Prop :=
  1 ≤ st.u ∧ st.u ≤ n ∧ 0 ≤ st.wait_time ∧ st.wait_time ≤ st.total_time ∧
  mt st.u ≤ st.total_time ∧ ReachSt edges st

/-- Soundness of the tentative answer. -/
def AnsOK (n : Nat) (edges : List (Nat × Nat)) (a : Int × Int) : Prop :=
  a = (INF, INF) ∨
    ∃ st, ReachSt edges st ∧ st.u = n ∧ st.total_time = a.1 ∧ st.wait_time = a.2

/-- The master search invariant. -/
def Inv (n : Nat) (edges : List (Nat × Nat)) (s : SS) : Prop :=
  (∀ st ∈ s.pq, StOK n edges s.min_t st) ∧ AnsOK n edges s.ans

/-- Total size of the `min_t` table over nodes `0..n`. -/
def sumTf (n : Nat) (g : Nat → Int) : Nat :=
  ∑ u ∈ Finset.range (n + 1), (g u).toNat

/-- Total size of the `min_w` table over nodes `0..n` and offsets `0..C-1`. -/
def sumWf (n : Nat) (f : Nat → Int → Int) : Nat :=
  ∑ u ∈ Finset.range (n + 1), ∑ d ∈ Finset.range 600, (f u (d : Int)).toNat

def edges0 : List (Nat × Nat) := List.replicate 600 (1, 2) ++ [(1, 3)]

/-- Search-side invariant on the counterexample graph: the answer stays at
the sentinel, node 3 is never recorded, node-1 frontier states stay below
time 600 (the window prunes later ones), node-2 states below 601. -/
def InvG (s : SS) : Prop :=
  s.ans = (INF, INF) ∧
  s.min_t 1 = 0 ∧
  s.min_t 3 = INF ∧
  (s.min_t 2 = INF ∨ s.min_t 2 = 1) ∧
  (∀ st ∈ s.pq, 0 ≤ st.total_time ∧
    ((st.u = 1 ∧ st.total_time ≤ 599) ∨
     (st.u = 2 ∧ 1 ≤ st.total_time ∧ st.total_time ≤ 600))) ∧
  (s.min_t 2 = INF → ∀ st ∈ s.pq, st = ⟨0, 0, 1⟩)

/-- Triangle graph used in several witnesses. -/
def triE : List (Nat × Nat) := [(1, 2), (2, 3), (1, 3)]

/-- Concrete search state used by the early-exit witness: the tentative
answer `(3, 0)` has been recorded and the frontier holds a state at time 5. -/
def s5w : SS :=
  { pq := [⟨5, 0, 1⟩],
    min_t := updT (fun _ => INF) 1 0,
    min_w := updW (fun _ _ => INF) 1 0 0,
    ans := (3, 0) }

/-! ## Basic lemmas about the queue ordering and `popMin` -/

/-- Unfolding equation for `output`, stated once with symbolic arguments so
that later rewrites never force evaluation of the search. -/
theorem output_def (n : Nat) (edges : List (Nat × Nat)) :
    output n edges = (runLoop n edges (fuelBound n) initSS).ans := rfl

theorem stLe_total (a b : St) : stLe a b = true ∨ stLe b a = true := by
  unfold stLe
  by_cases h1 : a.total_time < b.total_time <;>
    by_cases h2 : b.total_time < a.total_time <;>
    simp [h1, h2] <;> omega

theorem stLe_trans {a b c : St} (h1 : stLe a b = true) (h2 : stLe b c = true) :
    stLe a c = true := by
  unfold stLe at *
  by_cases g1 : a.total_time < b.total_time <;>
    by_cases g2 : b.total_time < a.total_time <;>
    by_cases g3 : b.total_time < c.total_time <;>
    by_cases g4 : c.total_time < b.total_time <;>
    by_cases g5 : a.total_time < c.total_time <;>
    by_cases g6 : c.total_time < a.total_time <;>
    simp_all <;> omega

theorem stLe_t_le {a b : St} (h : stLe a b = true) :
    a.total_time ≤ b.total_time := by
  unfold stLe at h
  by_cases g1 : a.total_time < b.total_time <;>
    by_cases g2 : b.total_time < a.total_time <;>
    simp_all <;> omega

theorem popMin_eq_none {l : List St} : popMin l = none ↔ l = [] := by
  cases l with
  | nil => simp [popMin]
  | cons x xs =>
    simp only [popMin]
    cases h : popMin xs with
    | none => simp
    | some p =>
      obtain ⟨m, rest⟩ := p
      by_cases hle : stLe x m <;> simp [hle]

theorem popMin_perm {l : List St} {st : St} {rest : List St}
    (h : popMin l = some (st, rest)) : l.Perm (st :: rest) := by
  induction l generalizing st rest with
  | nil => simp [popMin] at h
  | cons x xs ih =>
    simp only [popMin] at h
    cases hx : popMin xs with
    | none =>
      rw [hx] at h
      have hxs : xs = [] := popMin_eq_none.mp hx
      simp at h
      obtain ⟨rfl, rfl⟩ := h
      subst hxs
      exact List.Perm.refl _
    | some p =>
      obtain ⟨m, rest'⟩ := p
      rw [hx] at h
      by_cases hle : stLe x m
      · simp [hle] at h
        obtain ⟨rfl, rfl⟩ := h
        exact List.Perm.refl _
      · simp [hle] at h
        obtain ⟨rfl, rfl⟩ := h
        have hperm : xs.Perm (m :: rest') := ih hx
        exact (List.Perm.cons x hperm).trans (List.Perm.swap m x rest')

theorem popMin_min {l : List St} {st : St} {rest : List St}
    (h : popMin l = some (st, rest)) : ∀ x ∈ rest, stLe st x = true := by
  induction l generalizing st rest with
  | nil => simp [popMin] at h
  | cons x xs ih =>
    simp only [popMin] at h
    cases hx : popMin xs with
    | none =>
      rw [hx] at h
      simp at h
      obtain ⟨rfl, rfl⟩ := h
      intro y hy
      simp at hy
    | some p =>
      obtain ⟨m, rest'⟩ := p
      rw [hx] at h
      by_cases hle : stLe x m
      · simp [hle] at h
        obtain ⟨rfl, rfl⟩ := h
        intro y hy
        have hperm := popMin_perm hx
        have hmem : y ∈ m :: rest' := (hperm.mem_iff).mp hy
        rcases List.mem_cons.mp hmem with rfl | hmemr
        · exact hle
        · exact stLe_trans hle (ih hx y hmemr)
      · simp [hle] at h
        obtain ⟨rfl, rfl⟩ := h
        intro y hy
        rcases List.mem_cons.mp hy with rfl | hmemr
        · rcases stLe_total y m with hym | hmy
          · exact absurd hym hle
          · exact hmy
        · exact ih hx y hmemr

theorem popMin_mem {l : List St} {st : St} {rest : List St}
    (h : popMin l = some (st, rest)) : st ∈ l :=
  (popMin_perm h).mem_iff.mpr (List.mem_cons_self st rest)

theorem popMin_rest_subset {l : List St} {st : St} {rest : List St}
    (h : popMin l = some (st, rest)) : ∀ x ∈ rest, x ∈ l :=
  fun x hx => (popMin_perm h).mem_iff.mpr (List.mem_cons_of_mem st hx)

theorem popMin_length {l : List St} {st : St} {rest : List St}
    (h : popMin l = some (st, rest)) : l.length = rest.length + 1 := by
  have := (popMin_perm h).length_eq
  simpa using this

/-! ## Adjacency lemmas -/

theorem adj_input_order_from (edges : List (Nat × Nat)) (a : Nat → List Nat)
    (x : Nat) :
    (edges.foldl (fun a e => pushTo (pushTo a e.1 e.2) e.2 e.1) a) x
      = a x ++ nbrs edges x := by
  induction edges generalizing a with
  | nil => simp [nbrs]
  | cons e es ih =>
    have step : (pushTo (pushTo a e.1 e.2) e.2 e.1) x = a x ++ edgeContrib e x := by
      obtain ⟨p, q⟩ := e
      by_cases h2 : x = q <;> by_cases h1 : x = p
      · subst h2; subst h1
        simp [pushTo, edgeContrib]
      · subst h2
        simp [pushTo, edgeContrib, h1, Ne.symm h1]
      · subst h1
        simp [pushTo, edgeContrib, h2, Ne.symm h2]
      · simp [pushTo, edgeContrib, h1, h2, Ne.symm h1, Ne.symm h2]
    calc (es.foldl (fun a e => pushTo (pushTo a e.1 e.2) e.2 e.1)
            (pushTo (pushTo a e.1 e.2) e.2 e.1)) x
        = (pushTo (pushTo a e.1 e.2) e.2 e.1) x ++ nbrs es x := ih _
      _ = (a x ++ edgeContrib e x) ++ nbrs es x := by rw [step]
      _ = a x ++ (edgeContrib e x ++ nbrs es x) := List.append_assoc _ _ _
      _ = a x ++ nbrs (e :: es) x := rfl

theorem adj_input_order_eq (edges : List (Nat × Nat)) (x : Nat) :
    adj_input_order edges x = nbrs edges x := by
  have := adj_input_order_from edges (fun _ => []) x
  simpa [adj_input_order] using this

theorem deg_eq (edges : List (Nat × Nat)) (u : Nat) :
    deg edges u = (nbrs edges u).length := by
  rw [deg, adj_input_order_eq]

theorem mem_nbrs_bound {n : Nat} {edges : List (Nat × Nat)} (hwf : WFE n edges)
    {x y : Nat} (hy : y ∈ nbrs edges x) : 1 ≤ y ∧ y ≤ n := by
  induction edges with
  | nil => simp [nbrs] at hy
  | cons e es ih =>
    have hwf' : WFE n es := fun f hf => hwf f (List.mem_cons_of_mem e hf)
    have he := hwf e (List.mem_cons_self e es)
    simp only [nbrs, List.foldr_cons] at hy
    rcases List.mem_append.mp hy with hc | hrest
    · simp only [edgeContrib] at hc
      rcases List.mem_append.mp hc with h1 | h2
      · by_cases hx1 : e.1 = x
        · simp [hx1] at h1
          omega
        · simp [hx1] at h1
      · by_cases hx2 : e.2 = x
        · simp [hx2] at h2
          omega
        · simp [hx2] at h2
    · exact ih hwf' hrest

/-! ## The edge-selection search (`find?` over 1-based indices) -/

theorem withIdx_find (l : List Nat) (b j : Nat) (h : j < l.length) :
    (withIdx l b).find? (fun e => ((e.2 : Int) == ((b + j : Nat) : Int)))
      = some (l.getD j 0, b + j) := by
  induction l generalizing b j with
  | nil => simp at h
  | cons x xs ih =>
    cases j with
    | zero =>
      simp [withIdx, List.find?_cons]
    | succ j' =>
      have hb : ((b : Int) == ((b + (j' + 1) : Nat) : Int)) = false := by
        simp only [beq_eq_false_iff_ne, ne_eq]
        intro hc
        have : b = b + (j' + 1) := by exact_mod_cast hc
        omega
      simp only [withIdx, List.find?_cons, hb]
      have harith : b + (j' + 1) = (b + 1) + j' := by omega
      rw [harith]
      have hlen : j' < xs.length := by simp at h; omega
      rw [ih (b + 1) j' hlen]
      simp [List.getD_cons_succ]

theorem withIdx_mem {l : List Nat} {b : Nat} {p : Nat × Nat}
    (h : p ∈ withIdx l b) : p.1 ∈ l := by
  induction l generalizing b with
  | nil => simp [withIdx] at h
  | cons x xs ih =>
    simp only [withIdx, List.mem_cons] at h
    rcases h with rfl | h
    · simp
    · exact List.mem_cons_of_mem _ (ih h)

/-- The C++ linear search in the move branch always finds the edge with index
`(t % deg u) + 1`, and that edge's endpoint is the `(t % deg u)`-th entry of
the input-order incident list. -/
theorem adj_find_eq (edges : List (Nat × Nat)) (u : Nat) (t : Int)
    (hd : 0 < deg edges u) :
    (adj edges u).find? (fun e => ((e.2 : Int) == t % (deg edges u : Int) + 1))
      = some ((adj_input_order edges u).getD (t % (deg edges u : Int)).toNat 0,
              1 + (t % (deg edges u : Int)).toNat) := by
  have hdpos : (0 : Int) < (deg edges u : Int) := by exact_mod_cast hd
  have hmod_nonneg : 0 ≤ t % (deg edges u : Int) :=
    Int.emod_nonneg t (by omega)
  have hmod_lt : t % (deg edges u : Int) < (deg edges u : Int) :=
    Int.emod_lt_of_pos t hdpos
  set j : Nat := (t % (deg edges u : Int)).toNat with hj
  have hjlt : j < (adj_input_order edges u).length := by
    have : j < deg edges u := by omega
    simpa [deg] using this
  have hcast : t % (deg edges u : Int) + 1 = ((1 + j : Nat) : Int) := by
    push_cast
    omega
  rw [hcast]
  exact withIdx_find (adj_input_order edges u) 1 j hjlt

/-! ## Walk lemmas -/

theorem wrunFrom_none (edges : List (Nat × Nat)) (acts : List Act) :
    acts.foldl (fun os a => os.bind (fun s => wstep edges s a)) none = none := by
  induction acts with
  | nil => rfl
  | cons a as ih => simpa using ih

theorem wrun_snoc (edges : List (Nat × Nat)) (acts : List Act) (a : Act) :
    wrun edges (acts ++ [a]) = (wrun edges acts).bind (fun s => wstep edges s a) := by
  simp [wrun, wrunFrom, List.foldl_append]

theorem ReachSt_init (edges : List (Nat × Nat)) : ReachSt edges ⟨0, 0, 1⟩ :=
  ⟨[], rfl⟩

theorem ReachSt_wait {edges : List (Nat × Nat)} {st : St} (h : ReachSt edges st) :
    ReachSt edges ⟨st.total_time + 1, st.wait_time + 1, st.u⟩ := by
  obtain ⟨acts, hacts⟩ := h
  exact ⟨acts ++ [.wait], by rw [wrun_snoc, hacts]; rfl⟩

theorem ReachSt_move {edges : List (Nat × Nat)} {st : St} (h : ReachSt edges st)
    (hd : 0 < (nbrs edges st.u).length) :
    ReachSt edges ⟨st.total_time + 1, st.wait_time,
      (nbrs edges st.u).getD (st.total_time % ((nbrs edges st.u).length : Int)).toNat 0⟩ := by
  obtain ⟨acts, hacts⟩ := h
  refine ⟨acts ++ [.move], ?_⟩
  rw [wrun_snoc, hacts]
  simp [wstep, hd]

theorem getD_mem {l : List Nat} {j : Nat} (h : j < l.length) (d : Nat) :
    l.getD j d ∈ l := by
  induction l generalizing j with
  | nil => simp at h
  | cons x xs ih =>
    cases j with
    | zero => simp
    | succ j' =>
      have : j' < xs.length := by simpa using h
      simpa using Or.inr (ih this)

/-! ## The search invariant

Every frontier state has its node in `1..n`, nonnegative wait bounded by its
time, its node's recorded `min_t` at or below its time, and is realised by an
admissible walk; the tentative answer, when not the sentinel, is realised by a
walk reaching the target. -/




theorem StOK_mono {n : Nat} {edges : List (Nat × Nat)} {mt mt' : Nat → Int}
    (hle : ∀ x, mt' x ≤ mt x) {st : St} (h : StOK n edges mt st) :
    StOK n edges mt' st := by
  obtain ⟨h1, h2, h3, h4, h5, h6⟩ := h
  exact ⟨h1, h2, h3, h4, le_trans (hle st.u) h5, h6⟩

theorem StOK_mk {n : Nat} {edges : List (Nat × Nat)} {mt : Nat → Int}
    {t w : Int} {u : Nat} (h1 : 1 ≤ u) (h2 : u ≤ n) (h3 : 0 ≤ w) (h4 : w ≤ t)
    (h5 : mt u ≤ t) (h6 : ReachSt edges ⟨t, w, u⟩) :
    StOK n edges mt ⟨t, w, u⟩ :=
  ⟨h1, h2, h3, h4, h5, h6⟩

theorem StOK_elim {n : Nat} {edges : List (Nat × Nat)} {mt : Nat → Int}
    {t w : Int} {u : Nat} (h : StOK n edges mt ⟨t, w, u⟩) :
    1 ≤ u ∧ u ≤ n ∧ 0 ≤ w ∧ w ≤ t ∧ mt u ≤ t ∧ ReachSt edges ⟨t, w, u⟩ :=
  h

theorem Inv_init {n : Nat} (edges : List (Nat × Nat)) (hn : 1 ≤ n) :
    Inv n edges initSS := by
  constructor
  · intro st hst
    simp [initSS] at hst
    subst hst
    refine ⟨le_refl 1, hn, le_refl 0, le_refl 0, ?_, ReachSt_init edges⟩
    simp [initSS, updT]
  · exact Or.inl rfl

/-- Characterisation of the wait option: tables other than `min_w` are
untouched, and states on the new frontier are old states or the wait
successor `(u, t+1, w+1)`. -/
theorem waitStep_shape (t w : Int) (u : Nat) (dt : Int) (s : SS) :
    (waitStep t w u dt s).1.min_t = s.min_t ∧
    (waitStep t w u dt s).1.ans = s.ans ∧
    ((waitStep t w u dt s).1.pq = s.pq ∨
      (waitStep t w u dt s).1.pq = ⟨t + 1, w + 1, u⟩ :: s.pq) := by
  unfold waitStep
  split
  · split
    · exact ⟨rfl, rfl, Or.inr rfl⟩
    · exact ⟨rfl, rfl, Or.inl rfl⟩
  · exact ⟨rfl, rfl, Or.inl rfl⟩

/-- Characterisation of the move option: the answer is untouched, `min_t` only
decreases, and states on the new frontier are old states or the move successor
`(v, t+1, w)` where `v` is the input-order neighbour at position
`t mod deg(u)`; in that case the new `min_t v` is at most `t+1`. -/
theorem moveStep_shape (edges : List (Nat × Nat)) (t w : Int) (u : Nat) (s : SS) :
    (moveStep edges t w u s).1.ans = s.ans ∧
    (∀ x, (moveStep edges t w u s).1.min_t x ≤ s.min_t x) ∧
    ((moveStep edges t w u s).1.pq = s.pq ∧ (moveStep edges t w u s).1.min_t = s.min_t ∨
      (0 < (nbrs edges u).length ∧
        (moveStep edges t w u s).1.pq =
          ⟨t + 1, w,
            (nbrs edges u).getD (t % ((nbrs edges u).length : Int)).toNat 0⟩ :: s.pq ∧
        (moveStep edges t w u s).1.min_t
            ((nbrs edges u).getD (t % ((nbrs edges u).length : Int)).toNat 0) ≤ t + 1)) := by
  have hdeg : deg edges u = (nbrs edges u).length := deg_eq edges u
  by_cases hd : 0 < deg edges u
  · have hfind := adj_find_eq edges u t hd
    unfold moveStep
    rw [if_pos hd]
    simp only [hfind]
    rw [adj_input_order_eq, hdeg]
    set v := (nbrs edges u).getD (t % ((nbrs edges u).length : Int)).toNat 0 with hv
    by_cases hb1 : t + 1 < s.min_t v
    · rw [if_pos hb1]
      refine ⟨rfl, ?_, Or.inr ⟨by omega, rfl, ?_⟩⟩
      · intro x
        simp only [updT]
        by_cases hx : x = v
        · rw [if_pos hx]; rw [hx]; omega
        · rw [if_neg hx]
      · simp [updT]
    · rw [if_neg hb1]
      by_cases hb2 : t + 1 - s.min_t v < C
      · rw [if_pos hb2]
        by_cases hb3 : w < s.min_w v (t + 1 - s.min_t v)
        · rw [if_pos hb3]
          exact ⟨rfl, fun x => le_refl _,
            Or.inr ⟨by omega, rfl, show s.min_t v ≤ t + 1 by omega⟩⟩
        · rw [if_neg hb3]
          exact ⟨rfl, fun x => le_refl _, Or.inl ⟨rfl, rfl⟩⟩
      · rw [if_neg hb2]
        exact ⟨rfl, fun x => le_refl _, Or.inl ⟨rfl, rfl⟩⟩
  · unfold moveStep
    rw [if_neg hd]
    exact ⟨rfl, fun x => le_refl _, Or.inl ⟨rfl, rfl⟩⟩

theorem expandStep_eq (edges : List (Nat × Nat)) (t w : Int) (u : Nat) (dt : Int)
    (s : SS) :
    expandStep edges t w u dt s =
      ((moveStep edges t w u (waitStep t w u dt s).1).1,
       (waitStep t w u dt s).2 ++ (moveStep edges t w u (waitStep t w u dt s).1).2) :=
  rfl

theorem tagAccess_fst (p : Nat × Int) (r : SS × List (Nat × Int)) :
    (tagAccess p r).1 = r.1 := rfl

theorem expandStep_fst (edges : List (Nat × Nat)) (t w : Int) (u : Nat)
    (dt : Int) (s : SS) :
    (expandStep edges t w u dt s).1
      = (moveStep edges t w u (waitStep t w u dt s).1).1 := rfl

/-- Exhaustive case analysis of one loop iteration on a nonempty frontier. -/
theorem stepA_cases (n : Nat) (edges : List (Nat × Nat)) (s : SS) {st : St}
    {rest : List St} (hpop : popMin s.pq = some (st, rest)) :
    (stepA n edges s = ({ s with pq := rest }, []) ∧
      (s.min_t st.u = INF ∨ s.min_t st.u + C < st.total_time ∨
        C ≤ st.total_time - s.min_t st.u)) ∨
    (stepA n edges s =
        ({ s with pq := rest }, [(st.u, st.total_time - s.min_t st.u)]) ∧
      ¬ s.min_t st.u = INF ∧ ¬ s.min_t st.u + C < st.total_time ∧
      ¬ C ≤ st.total_time - s.min_t st.u ∧
      s.min_w st.u (st.total_time - s.min_t st.u) < st.wait_time) ∨
    (stepA n edges s =
        ({ s with pq := rest, ans := ansUpd n s.ans st.total_time st.wait_time st.u },
          [(st.u, st.total_time - s.min_t st.u)]) ∧
      ¬ s.min_t st.u = INF ∧ ¬ s.min_t st.u + C < st.total_time ∧
      ¬ C ≤ st.total_time - s.min_t st.u ∧
      ¬ s.min_w st.u (st.total_time - s.min_t st.u) < st.wait_time ∧
      (ansUpd n s.ans st.total_time st.wait_time st.u).1 < st.total_time) ∨
    (stepA n edges s =
        tagAccess (st.u, st.total_time - s.min_t st.u)
          (expandStep edges st.total_time st.wait_time st.u
            (st.total_time - s.min_t st.u)
            { s with pq := rest,
                     ans := ansUpd n s.ans st.total_time st.wait_time st.u }) ∧
      ¬ s.min_t st.u = INF ∧ ¬ s.min_t st.u + C < st.total_time ∧
      ¬ C ≤ st.total_time - s.min_t st.u ∧
      ¬ s.min_w st.u (st.total_time - s.min_t st.u) < st.wait_time ∧
      ¬ (ansUpd n s.ans st.total_time st.wait_time st.u).1 < st.total_time) := by
  have hrw : stepA n edges s =
      (if s.min_t st.u = INF ∨ s.min_t st.u + C < st.total_time then
        ({ s with pq := rest }, [])
      else if C ≤ st.total_time - s.min_t st.u then
        ({ s with pq := rest }, [])
      else if s.min_w st.u (st.total_time - s.min_t st.u) < st.wait_time then
        ({ s with pq := rest }, [(st.u, st.total_time - s.min_t st.u)])
      else if (ansUpd n s.ans st.total_time st.wait_time st.u).1 < st.total_time then
        ({ s with pq := rest, ans := ansUpd n s.ans st.total_time st.wait_time st.u },
          [(st.u, st.total_time - s.min_t st.u)])
      else
        tagAccess (st.u, st.total_time - s.min_t st.u)
          (expandStep edges st.total_time st.wait_time st.u
            (st.total_time - s.min_t st.u)
            { s with pq := rest,
                     ans := ansUpd n s.ans st.total_time st.wait_time st.u })) := by
    unfold stepA
    rw [hpop]
  by_cases h1 : s.min_t st.u = INF ∨ s.min_t st.u + C < st.total_time
  · left
    rw [hrw, if_pos h1]
    exact ⟨rfl, by tauto⟩
  · rw [hrw, if_neg h1]
    push_neg at h1
    by_cases h2 : C ≤ st.total_time - s.min_t st.u
    · left
      rw [if_pos h2]
      exact ⟨rfl, Or.inr (Or.inr h2)⟩
    · rw [if_neg h2]
      by_cases h3 : s.min_w st.u (st.total_time - s.min_t st.u) < st.wait_time
      · right; left
        rw [if_pos h3]
        exact ⟨rfl, h1.1, by omega, h2, h3⟩
      · rw [if_neg h3]
        by_cases h4 : (ansUpd n s.ans st.total_time st.wait_time st.u).1 < st.total_time
        · right; right; left
          rw [if_pos h4]
          exact ⟨rfl, h1.1, by omega, h2, h3, h4⟩
        · right; right; right
          rw [if_neg h4]
          exact ⟨rfl, h1.1, by omega, h2, h3, h4⟩

/-- The updated answer is sound whenever the popped state and the old answer
are. -/
theorem AnsOK_upd {n : Nat} {edges : List (Nat × Nat)} {a : Int × Int}
    (ha : AnsOK n edges a) {st : St} (hr : ReachSt edges st) :
    AnsOK n edges (ansUpd n a st.total_time st.wait_time st.u) := by
  unfold ansUpd
  split
  · next hcond => exact Or.inr ⟨st, hr, hcond.1, rfl, rfl⟩
  · exact ha

theorem Inv_waitStep {n : Nat} {edges : List (Nat × Nat)} {t w : Int} {u : Nat}
    {dt : Int} {s : SS} (hinv : Inv n edges s)
    (hst : StOK n edges s.min_t ⟨t, w, u⟩) :
    Inv n edges (waitStep t w u dt s).1 := by
  obtain ⟨hmt, hans, hpq⟩ := waitStep_shape t w u dt s
  constructor
  · intro st' hst'
    rw [hmt]
    rcases hpq with h | h
    · rw [h] at hst'
      exact hinv.1 st' hst'
    · rw [h] at hst'
      rcases List.mem_cons.mp hst' with rfl | hmem
      · obtain ⟨h1, h2, h3, h4, h5, h6⟩ := StOK_elim hst
        exact StOK_mk h1 h2 (by omega) (by omega) (by omega) (ReachSt_wait h6)
      · exact hinv.1 st' hmem
  · rw [hans]
    exact hinv.2

theorem Inv_moveStep {n : Nat} {edges : List (Nat × Nat)} (hwf : WFE n edges)
    {t w : Int} {u : Nat} {s : SS} (hinv : Inv n edges s)
    (hst : StOK n edges s.min_t ⟨t, w, u⟩) :
    Inv n edges (moveStep edges t w u s).1 := by
  obtain ⟨hans, hdec, hshape⟩ := moveStep_shape edges t w u s
  constructor
  · intro st' hst'
    rcases hshape with ⟨hpq, hmt⟩ | ⟨hd, hpq, hmtv⟩
    · rw [hpq] at hst'
      rw [hmt]
      exact hinv.1 st' hst'
    · rw [hpq] at hst'
      rcases List.mem_cons.mp hst' with rfl | hmem
      · have hjlt : (t % ((nbrs edges u).length : Int)).toNat < (nbrs edges u).length := by
          have hpos : (0 : Int) < ((nbrs edges u).length : Int) := by exact_mod_cast hd
          have := Int.emod_lt_of_pos t hpos
          have := Int.emod_nonneg t (by omega : ((nbrs edges u).length : Int) ≠ 0)
          omega
        have hvmem : (nbrs edges u).getD (t % ((nbrs edges u).length : Int)).toNat 0
            ∈ nbrs edges u := getD_mem hjlt 0
        have hvb := mem_nbrs_bound hwf hvmem
        obtain ⟨h1, h2, h3, h4, h5, h6⟩ := StOK_elim hst
        exact StOK_mk hvb.1 hvb.2 h3 (by omega) hmtv (ReachSt_move h6 hd)
      · exact StOK_mono hdec (hinv.1 st' hmem)
  · rw [hans]
    exact hinv.2

/-- One loop iteration preserves the master invariant. -/
theorem Inv_step {n : Nat} {edges : List (Nat × Nat)} (hwf : WFE n edges) {s : SS}
    (hinv : Inv n edges s) : Inv n edges (step n edges s) := by
  unfold step
  cases hpop : popMin s.pq with
  | none =>
    unfold stepA
    rw [hpop]
    exact hinv
  | some pr =>
    obtain ⟨st, rest⟩ := pr
    have hmem := popMin_mem hpop
    have hsub := popMin_rest_subset hpop
    have hstok : StOK n edges s.min_t st := hinv.1 st hmem
    have hinv' : Inv n edges { s with pq := rest } :=
      ⟨fun x hx => hinv.1 x (hsub x hx), hinv.2⟩
    have hansOK := AnsOK_upd (a := s.ans) hinv.2 hstok.2.2.2.2.2
    rcases stepA_cases n edges s hpop with ⟨heq, _⟩ | ⟨heq, _⟩ | ⟨heq, _⟩ | ⟨heq, _⟩
    · rw [heq]
      exact hinv'
    · rw [heq]
      exact hinv'
    · rw [heq]
      exact ⟨hinv'.1, hansOK⟩
    · rw [heq]
      have hinv1 : Inv n edges
          { s with pq := rest, ans := ansUpd n s.ans st.total_time st.wait_time st.u } :=
        ⟨hinv'.1, hansOK⟩
      have hst1 : StOK n edges s.min_t ⟨st.total_time, st.wait_time, st.u⟩ := hstok
      have h2 := @Inv_waitStep n edges st.total_time st.wait_time st.u
        (st.total_time - s.min_t st.u)
        { s with pq := rest, ans := ansUpd n s.ans st.total_time st.wait_time st.u }
        hinv1 hst1
      have hmtw := (waitStep_shape st.total_time st.wait_time st.u
        (st.total_time - s.min_t st.u)
        { s with pq := rest, ans := ansUpd n s.ans st.total_time st.wait_time st.u }).1
      have hst2 : StOK n edges
          ((waitStep st.total_time st.wait_time st.u (st.total_time - s.min_t st.u)
            { s with pq := rest,
                     ans := ansUpd n s.ans st.total_time st.wait_time st.u }).1.min_t)
          ⟨st.total_time, st.wait_time, st.u⟩ := by
        rw [hmtw]
        exact hst1
      exact Inv_moveStep hwf h2 hst2

theorem Inv_runLoop {n : Nat} {edges : List (Nat × Nat)} (hwf : WFE n edges) :
    ∀ (k : Nat) (s : SS), Inv n edges s → Inv n edges (runLoop n edges k s) := by
  intro k
  induction k with
  | zero => intro s h; exact h
  | succ k ih =>
    intro s h
    unfold runLoop
    split
    · exact h
    · exact ih _ (Inv_step hwf h)

theorem Inv_iter {n : Nat} {edges : List (Nat × Nat)} (hwf : WFE n edges)
    (hn : 1 ≤ n) (k : Nat) : Inv n edges (iter n edges k) :=
  Inv_runLoop hwf k initSS (Inv_init edges hn)

/-- The wait option accesses `min_w` only at `(u, dt+1)`, and only when the
offset guard `t+1 < min_t u + C` holds. -/
theorem waitStep_acc (t w : Int) (u : Nat) (dt : Int) (s : SS) :
    (waitStep t w u dt s).2 = [] ∨
      ((waitStep t w u dt s).2 = [(u, dt + 1)] ∧ t + 1 < s.min_t u + C) := by
  unfold waitStep
  split
  · next h =>
    split
    · exact Or.inr ⟨rfl, h⟩
    · exact Or.inr ⟨rfl, h⟩
  · exact Or.inl rfl

/-- The move option accesses `min_w` only at the selected neighbour `v`, at
offset `0` (reset branch) or at the guarded offset `t+1 - min_t v < C`. -/
theorem moveStep_acc (edges : List (Nat × Nat)) (t w : Int) (u : Nat) (s : SS) :
    (moveStep edges t w u s).2 = [] ∨
      (∃ v, v ∈ nbrs edges u ∧
        (((moveStep edges t w u s).2 = [(v, 0)] ∧ t + 1 < s.min_t v) ∨
         ((moveStep edges t w u s).2 = [(v, t + 1 - s.min_t v)] ∧
           ¬ t + 1 < s.min_t v ∧ t + 1 - s.min_t v < C))) := by
  by_cases hd : 0 < deg edges u
  · have hfind := adj_find_eq edges u t hd
    have hdeg : deg edges u = (nbrs edges u).length := deg_eq edges u
    unfold moveStep
    rw [if_pos hd]
    simp only [hfind]
    rw [adj_input_order_eq, hdeg]
    have hjlt : (t % ((nbrs edges u).length : Int)).toNat < (nbrs edges u).length := by
      have hd' : 0 < (nbrs edges u).length := by omega
      have hpos : (0 : Int) < ((nbrs edges u).length : Int) := by exact_mod_cast hd'
      have := Int.emod_lt_of_pos t hpos
      have := Int.emod_nonneg t (by omega : ((nbrs edges u).length : Int) ≠ 0)
      omega
    set v := (nbrs edges u).getD (t % ((nbrs edges u).length : Int)).toNat 0 with hv
    have hvmem : v ∈ nbrs edges u := getD_mem hjlt 0
    by_cases hb1 : t + 1 < s.min_t v
    · rw [if_pos hb1]
      exact Or.inr ⟨v, hvmem, Or.inl ⟨rfl, hb1⟩⟩
    · rw [if_neg hb1]
      by_cases hb2 : t + 1 - s.min_t v < C
      · rw [if_pos hb2]
        by_cases hb3 : w < s.min_w v (t + 1 - s.min_t v)
        · rw [if_pos hb3]
          exact Or.inr ⟨v, hvmem, Or.inr ⟨rfl, hb1, hb2⟩⟩
        · rw [if_neg hb3]
          exact Or.inr ⟨v, hvmem, Or.inr ⟨rfl, hb1, hb2⟩⟩
      · rw [if_neg hb2]
        exact Or.inl rfl
  · unfold moveStep
    rw [if_neg hd]
    exact Or.inl rfl

/-- Every `min_w` index accessed in one iteration lies in the table:
node in `1..n`, offset in `[0, C)`. -/
theorem stepA_acc_bound {n : Nat} {edges : List (Nat × Nat)} (hwf : WFE n edges)
    {s : SS} (hinv : Inv n edges s) :
    ∀ a ∈ (stepA n edges s).2, 1 ≤ a.1 ∧ a.1 ≤ n ∧ 0 ≤ a.2 ∧ a.2 < C := by
  cases hpop : popMin s.pq with
  | none =>
    unfold stepA
    rw [hpop]
    intro a ha
    simp at ha
  | some pr =>
    obtain ⟨st, rest⟩ := pr
    have hstok : StOK n edges s.min_t st := hinv.1 st (popMin_mem hpop)
    obtain ⟨hu1, hu2, hw0, hwt, hmt, _⟩ := hstok
    rcases stepA_cases n edges s hpop with ⟨heq, _⟩ | ⟨heq, hc⟩ | ⟨heq, hc⟩ | ⟨heq, hc⟩
    · rw [heq]
      intro a ha
      simp at ha
    · rw [heq]
      intro a ha
      simp at ha
      subst ha
      refine ⟨hu1, hu2, by omega, by omega⟩
    · rw [heq]
      intro a ha
      simp at ha
      subst ha
      refine ⟨hu1, hu2, by omega, by omega⟩
    · rw [heq]
      set s1 : SS :=
        { s with pq := rest,
                 ans := ansUpd n s.ans st.total_time st.wait_time st.u } with hs1
      intro a ha
      rw [tagAccess, expandStep_eq] at ha
      simp only [List.mem_cons, List.mem_append] at ha
      obtain ⟨_, _, hg3, _, _⟩ := hc
      have hmts1 : s1.min_t = s.min_t := rfl
      rcases ha with rfl | hwacc | hmacc
      · exact ⟨hu1, hu2, by omega, by omega⟩
      · rcases waitStep_acc st.total_time st.wait_time st.u
            (st.total_time - s.min_t st.u) s1
          with hnil | ⟨hone, hguard⟩
        · rw [hnil] at hwacc
          simp at hwacc
        · rw [hone] at hwacc
          simp at hwacc
          subst hwacc
          rw [hmts1] at hguard
          refine ⟨hu1, hu2, by omega, ?_⟩
          have : s.min_t st.u ≤ st.total_time := hmt
          omega
      · have hmtw := (waitStep_shape st.total_time st.wait_time st.u
          (st.total_time - s.min_t st.u) s1).1
        rcases moveStep_acc edges st.total_time st.wait_time st.u
            (waitStep st.total_time st.wait_time st.u
              (st.total_time - s.min_t st.u) s1).1
          with hnil | ⟨v, hvmem, hcase⟩
        · rw [hnil] at hmacc
          simp at hmacc
        · have hvb := mem_nbrs_bound hwf hvmem
          rw [hmtw] at hcase
          rw [hmts1] at hcase
          rcases hcase with ⟨hone, hguard⟩ | ⟨hone, hg1, hg2⟩
          · rw [hone] at hmacc
            simp at hmacc
            subst hmacc
            have hC : (0 : Int) < C := by norm_num [C]
            exact ⟨hvb.1, hvb.2, le_refl 0, hC⟩
          · rw [hone] at hmacc
            simp at hmacc
            subst hmacc
            exact ⟨hvb.1, hvb.2, by omega, hg2⟩

/-- One iteration either leaves the answer unchanged or replaces it by the
`(time, wait)` of a popped target state that is lexicographically smaller. -/
theorem step_ans {n : Nat} {edges : List (Nat × Nat)} (s : SS) :
    (step n edges s).ans = s.ans ∨
      ∃ st ∈ s.pq, st.u = n ∧
        (step n edges s).ans = (st.total_time, st.wait_time) ∧
        (st.total_time < s.ans.1 ∨
          (st.total_time = s.ans.1 ∧ st.wait_time < s.ans.2)) := by
  unfold step
  cases hpop : popMin s.pq with
  | none =>
    unfold stepA
    rw [hpop]
    exact Or.inl rfl
  | some pr =>
    obtain ⟨st, rest⟩ := pr
    have hmem := popMin_mem hpop
    have hansUpd : ansUpd n s.ans st.total_time st.wait_time st.u = s.ans ∨
        (st.u = n ∧
          ansUpd n s.ans st.total_time st.wait_time st.u =
            (st.total_time, st.wait_time) ∧
          (st.total_time < s.ans.1 ∨
            (st.total_time = s.ans.1 ∧ st.wait_time < s.ans.2))) := by
      unfold ansUpd
      split
      · next hcond => exact Or.inr ⟨hcond.1, rfl, hcond.2⟩
      · exact Or.inl rfl
    rcases stepA_cases n edges s hpop with ⟨heq, _⟩ | ⟨heq, _⟩ | ⟨heq, _⟩ | ⟨heq, _⟩
    · rw [heq]
      exact Or.inl rfl
    · rw [heq]
      exact Or.inl rfl
    · rw [heq]
      rcases hansUpd with h | ⟨hn', hval, hlex⟩
      · exact Or.inl h
      · exact Or.inr ⟨st, hmem, hn', hval, hlex⟩
    · rw [heq]
      have hans4 : (tagAccess (st.u, st.total_time - s.min_t st.u)
          (expandStep edges st.total_time st.wait_time st.u
            (st.total_time - s.min_t st.u)
            { s with pq := rest,
                     ans := ansUpd n s.ans st.total_time st.wait_time st.u })).1.ans
          = ansUpd n s.ans st.total_time st.wait_time st.u := by
        rw [tagAccess, expandStep_eq]
        have hw := (waitStep_shape st.total_time st.wait_time st.u
          (st.total_time - s.min_t st.u)
          { s with pq := rest,
                   ans := ansUpd n s.ans st.total_time st.wait_time st.u }).2.1
        have hm := (moveStep_shape edges st.total_time st.wait_time st.u
          (waitStep st.total_time st.wait_time st.u (st.total_time - s.min_t st.u)
            { s with pq := rest,
                     ans := ansUpd n s.ans st.total_time st.wait_time st.u }).1).1
        rw [hm, hw]
      rw [hans4]
      rcases hansUpd with h | ⟨hn', hval, hlex⟩
      · exact Or.inl h
      · exact Or.inr ⟨st, hmem, hn', hval, hlex⟩

/-! ## Termination

Each iteration strictly decreases the lexicographic measure
`(Σ min_t, 3·Σ min_w + |pq|)`: a state is pushed only together with a strict
decrease of a `min_t` entry (reset branch) or of a `min_w` slot (guarded
improvement), and a pop alone shrinks the frontier. -/



theorem sumWf_updW_lt {n : Nat} {f : Nat → Int → Int} {u : Nat} {d x : Int}
    (hu : u ≤ n) (hd0 : 0 ≤ d) (hdC : d < C) (hx0 : 0 ≤ x) (hlt : x < f u d) :
    sumWf n (updW f u d x) < sumWf n f := by
  unfold sumWf
  apply Finset.sum_lt_sum
  · intro i _
    apply Finset.sum_le_sum
    intro j _
    unfold updW
    split
    · next hcond =>
      obtain ⟨rfl, hjd⟩ := hcond
      rw [hjd]
      omega
    · exact le_refl _
  · refine ⟨u, Finset.mem_range.mpr (by omega), ?_⟩
    apply Finset.sum_lt_sum
    · intro j _
      unfold updW
      split
      · next hcond =>
        obtain ⟨-, hjd⟩ := hcond
        rw [hjd]
        omega
      · exact le_refl _
    · have hC : C = 600 := rfl
      refine ⟨d.toNat, Finset.mem_range.mpr (by omega), ?_⟩
      have hcast : ((d.toNat : Nat) : Int) = d := Int.toNat_of_nonneg hd0
      rw [hcast]
      unfold updW
      rw [if_pos ⟨rfl, rfl⟩]
      omega

theorem sumTf_updT_lt {n : Nat} {g : Nat → Int} {u : Nat} {x : Int}
    (hu : u ≤ n) (hx0 : 0 ≤ x) (hlt : x < g u) :
    sumTf n (updT g u x) < sumTf n g := by
  unfold sumTf
  apply Finset.sum_lt_sum
  · intro i _
    unfold updT
    split
    · next hcond =>
      subst hcond
      omega
    · exact le_refl _
  · refine ⟨u, Finset.mem_range.mpr (by omega), ?_⟩
    unfold updT
    rw [if_pos rfl]
    omega

theorem waitStep_measure {n : Nat} (t w : Int) (u : Nat) (dt : Int) (s : SS)
    (hu : u ≤ n) (hw : 0 ≤ w) (hdtdef : dt = t - s.min_t u) (hdt0 : 0 ≤ dt) :
    (waitStep t w u dt s).1.min_t = s.min_t ∧
    3 * sumWf n (waitStep t w u dt s).1.min_w + (waitStep t w u dt s).1.pq.length ≤
      3 * sumWf n s.min_w + s.pq.length := by
  unfold waitStep
  split
  · next hguard =>
    split
    · next himpr =>
      refine ⟨rfl, ?_⟩
      have hdec : sumWf n (updW s.min_w u (dt + 1) (w + 1)) < sumWf n s.min_w :=
        sumWf_updW_lt hu (by omega) (by omega) (by omega) himpr
      have hlen : (⟨t + 1, w + 1, u⟩ :: s.pq).length = s.pq.length + 1 := rfl
      simp only [hlen]
      omega
    · exact ⟨rfl, le_refl _⟩
  · exact ⟨rfl, le_refl _⟩

theorem moveStep_measure {n : Nat} {edges : List (Nat × Nat)} (hwf : WFE n edges)
    (t w : Int) (u : Nat) (s : SS) (hw : 0 ≤ w) (ht : 0 ≤ t) :
    ((moveStep edges t w u s).1.min_t = s.min_t ∧
      3 * sumWf n (moveStep edges t w u s).1.min_w +
          (moveStep edges t w u s).1.pq.length ≤
        3 * sumWf n s.min_w + s.pq.length) ∨
    sumTf n (moveStep edges t w u s).1.min_t < sumTf n s.min_t := by
  by_cases hd : 0 < deg edges u
  · have hfind := adj_find_eq edges u t hd
    have hdeg : deg edges u = (nbrs edges u).length := deg_eq edges u
    unfold moveStep
    rw [if_pos hd]
    simp only [hfind]
    rw [adj_input_order_eq, hdeg]
    have hjlt : (t % ((nbrs edges u).length : Int)).toNat < (nbrs edges u).length := by
      have hd' : 0 < (nbrs edges u).length := by omega
      have hpos : (0 : Int) < ((nbrs edges u).length : Int) := by exact_mod_cast hd'
      have := Int.emod_lt_of_pos t hpos
      have := Int.emod_nonneg t (by omega : ((nbrs edges u).length : Int) ≠ 0)
      omega
    set v := (nbrs edges u).getD (t % ((nbrs edges u).length : Int)).toNat 0 with hv
    have hvb := mem_nbrs_bound hwf (getD_mem hjlt 0)
    by_cases hb1 : t + 1 < s.min_t v
    · rw [if_pos hb1]
      right
      exact sumTf_updT_lt hvb.2 (by omega) hb1
    · rw [if_neg hb1]
      by_cases hb2 : t + 1 - s.min_t v < C
      · rw [if_pos hb2]
        by_cases hb3 : w < s.min_w v (t + 1 - s.min_t v)
        · rw [if_pos hb3]
          left
          refine ⟨rfl, ?_⟩
          have hdec : sumWf n (updW s.min_w v (t + 1 - s.min_t v) w) < sumWf n s.min_w :=
            sumWf_updW_lt hvb.2 (by omega) hb2 hw hb3
          have hlen : (⟨t + 1, w, v⟩ :: s.pq).length = s.pq.length + 1 := rfl
          simp only [hlen]
          omega
        · rw [if_neg hb3]
          exact Or.inl ⟨rfl, le_refl _⟩
      · rw [if_neg hb2]
        exact Or.inl ⟨rfl, le_refl _⟩
  · unfold moveStep
    rw [if_neg hd]
    exact Or.inl ⟨rfl, le_refl _⟩

/-- One iteration on a nonempty frontier strictly decreases the lexicographic
measure `(Σ min_t, 3·Σ min_w + |pq|)`. -/
theorem step_measure {n : Nat} {edges : List (Nat × Nat)} (hwf : WFE n edges)
    {s : SS} (hinv : Inv n edges s) (hpq : s.pq ≠ []) :
    sumTf n (step n edges s).min_t < sumTf n s.min_t ∨
    (sumTf n (step n edges s).min_t = sumTf n s.min_t ∧
      3 * sumWf n (step n edges s).min_w + (step n edges s).pq.length <
        3 * sumWf n s.min_w + s.pq.length) := by
  unfold step
  cases hpop : popMin s.pq with
  | none =>
    exact absurd (popMin_eq_none.mp hpop) hpq
  | some pr =>
    obtain ⟨st, rest⟩ := pr
    have hlen := popMin_length hpop
    obtain ⟨hu1, hu2, hw0, hwt, hmt, _⟩ := hinv.1 st (popMin_mem hpop)
    rcases stepA_cases n edges s hpop with ⟨heq, _⟩ | ⟨heq, _⟩ | ⟨heq, _⟩ | ⟨heq, _⟩
    · rw [heq]
      right
      refine ⟨rfl, ?_⟩
      show 3 * sumWf n s.min_w + rest.length < 3 * sumWf n s.min_w + s.pq.length
      rw [hlen]
      omega
    · rw [heq]
      right
      refine ⟨rfl, ?_⟩
      show 3 * sumWf n s.min_w + rest.length < 3 * sumWf n s.min_w + s.pq.length
      rw [hlen]
      omega
    · rw [heq]
      right
      refine ⟨rfl, ?_⟩
      show 3 * sumWf n s.min_w + rest.length < 3 * sumWf n s.min_w + s.pq.length
      rw [hlen]
      omega
    · rw [heq]
      set s1 : SS :=
        { s with pq := rest,
                 ans := ansUpd n s.ans st.total_time st.wait_time st.u } with hs1
      have hS1t : s1.min_t = s.min_t := rfl
      have hS1w : s1.min_w = s.min_w := rfl
      have hS1len : s1.pq.length = rest.length := rfl
      obtain ⟨hwt_mt, hwt_meas⟩ := waitStep_measure st.total_time st.wait_time st.u
        (st.total_time - s.min_t st.u) s1 hu2 hw0 rfl (by omega)
      set s2 : SS := (waitStep st.total_time st.wait_time st.u
        (st.total_time - s.min_t st.u) s1).1 with hs2
      have hmv := moveStep_measure (n := n) hwf st.total_time st.wait_time st.u s2
        hw0 (by omega)
      have hres : (tagAccess (st.u, st.total_time - s.min_t st.u)
          (expandStep edges st.total_time st.wait_time st.u
            (st.total_time - s.min_t st.u) s1)).1
          = (moveStep edges st.total_time st.wait_time st.u s2).1 := rfl
      rw [hres]
      rcases hmv with ⟨hmv_mt, hmv_meas⟩ | hmv_lt
      · right
        constructor
        · rw [hmv_mt, hwt_mt, hS1t]
        · calc 3 * sumWf n (moveStep edges st.total_time st.wait_time st.u s2).1.min_w +
                (moveStep edges st.total_time st.wait_time st.u s2).1.pq.length
              ≤ 3 * sumWf n s2.min_w + s2.pq.length := hmv_meas
            _ ≤ 3 * sumWf n s1.min_w + s1.pq.length := hwt_meas
            _ = 3 * sumWf n s.min_w + rest.length := by rw [hS1w, hS1len]
            _ < 3 * sumWf n s.min_w + s.pq.length := by rw [hlen]; omega
      · left
        rw [hwt_mt, hS1t] at hmv_lt
        exact hmv_lt

theorem runLoop_empty {n : Nat} {edges : List (Nat × Nat)} {s : SS}
    (h : s.pq = []) : ∀ k, runLoop n edges k s = s := by
  intro k
  cases k with
  | zero => rfl
  | succ k => simp [runLoop, h]

theorem runLoop_succ {n : Nat} {edges : List (Nat × Nat)} {s : SS}
    (h : s.pq ≠ []) (k : Nat) :
    runLoop n edges (k + 1) s = runLoop n edges k (step n edges s) := by
  cases hl : s.pq with
  | nil => exact absurd hl h
  | cons x l => simp [runLoop, hl]

theorem runLoop_stable {n : Nat} {edges : List (Nat × Nat)} :
    ∀ (k j : Nat) (s : SS), k ≤ j → (runLoop n edges k s).pq = [] →
      runLoop n edges j s = runLoop n edges k s := by
  intro k
  induction k with
  | zero =>
    intro j s _ hempty
    exact runLoop_empty hempty j
  | succ k ih =>
    intro j s hkj hempty
    cases hl : s.pq with
    | nil =>
      rw [runLoop_empty hl, runLoop_empty hl]
    | cons x l =>
      have hne : s.pq ≠ [] := by simp [hl]
      obtain ⟨j', rfl⟩ : ∃ j', j = j' + 1 := ⟨j - 1, by omega⟩
      rw [runLoop_succ hne] at hempty ⊢
      rw [runLoop_succ hne] at *
      exact ih j' (step n edges s) (by omega) hempty

theorem terminates_aux {n : Nat} {edges : List (Nat × Nat)} (hwf : WFE n edges) :
    ∀ (a b : Nat) (s : SS), sumTf n s.min_t = a →
      3 * sumWf n s.min_w + s.pq.length = b → Inv n edges s →
      ∃ k, (runLoop n edges k s).pq = [] := by
  intro a
  induction a using Nat.strong_induction_on with
  | _ a iha =>
    intro b
    induction b using Nat.strong_induction_on with
    | _ b ihb =>
      intro s ha hb hinv
      cases hpq : s.pq with
      | nil => exact ⟨0, hpq⟩
      | cons x l =>
        have hpq' : s.pq ≠ [] := by simp [hpq]
        rcases step_measure hwf hinv hpq' with hlt | ⟨heqT, hltW⟩
        · obtain ⟨k, hk⟩ := iha (sumTf n (step n edges s).min_t) (by omega)
            (3 * sumWf n (step n edges s).min_w + (step n edges s).pq.length)
            (step n edges s) rfl rfl (Inv_step hwf hinv)
          exact ⟨k + 1, by rw [runLoop_succ hpq' k]; exact hk⟩
        · obtain ⟨k, hk⟩ := ihb
            (3 * sumWf n (step n edges s).min_w + (step n edges s).pq.length)
            (by omega) (step n edges s) (by omega) rfl (Inv_step hwf hinv)
          exact ⟨k + 1, by rw [runLoop_succ hpq' k]; exact hk⟩

/-- The search always terminates on well-formed inputs: some finite number of
iterations empties the frontier, after which the state never changes. -/
theorem search_terminates {n : Nat} {edges : List (Nat × Nat)} (hwf : WFE n edges)
    (hn : 1 ≤ n) :
    ∃ k, (iter n edges k).pq = [] ∧
      ∀ j, k ≤ j → iter n edges j = iter n edges k := by
  obtain ⟨k, hk⟩ := terminates_aux hwf (sumTf n initSS.min_t)
    (3 * sumWf n initSS.min_w + initSS.pq.length) initSS rfl rfl (Inv_init edges hn)
  exact ⟨k, hk, fun j hj => runLoop_stable k j initSS hj hk⟩

/-- Any non-sentinel answer printed by the program is realised by an actual
wait/move walk from node 1 to node `n`. -/
theorem output_sound {n : Nat} {edges : List (Nat × Nat)} (hwf : WFE n edges)
    (hn : 1 ≤ n) (hne : output n edges ≠ (INF, INF)) :
    ∃ st, ReachSt edges st ∧ st.u = n ∧
      st.total_time = (output n edges).1 ∧ st.wait_time = (output n edges).2 := by
  have hinv := Inv_iter hwf hn (fuelBound n)
  rcases hinv.2 with h | h
  · exact absurd h hne
  · exact h

/-! ## Guarded push characterisations (used for the window counterexample) -/

theorem waitStep_pq (t w : Int) (u : Nat) (dt : Int) (s : SS) :
    (waitStep t w u dt s).1.pq = s.pq ∨
      ((waitStep t w u dt s).1.pq = ⟨t + 1, w + 1, u⟩ :: s.pq ∧
        t + 1 < s.min_t u + C) := by
  unfold waitStep
  split
  · next hguard =>
    split
    · exact Or.inr ⟨rfl, hguard⟩
    · exact Or.inl rfl
  · exact Or.inl rfl

theorem moveStep_pq (edges : List (Nat × Nat)) (t w : Int) (u : Nat) (s : SS)
    (hd : 0 < deg edges u) {v : Nat}
    (hv : v = (nbrs edges u).getD (t % ((nbrs edges u).length : Int)).toNat 0) :
    (t + 1 < s.min_t v ∧
      (moveStep edges t w u s).1.pq = ⟨t + 1, w, v⟩ :: s.pq ∧
      (moveStep edges t w u s).1.min_t = updT s.min_t v (t + 1)) ∨
    (¬ t + 1 < s.min_t v ∧ (moveStep edges t w u s).1.min_t = s.min_t ∧
      ((moveStep edges t w u s).1.pq = s.pq ∨
        ((moveStep edges t w u s).1.pq = ⟨t + 1, w, v⟩ :: s.pq ∧
          t + 1 - s.min_t v < C))) := by
  have hfind := adj_find_eq edges u t hd
  have hdeg : deg edges u = (nbrs edges u).length := deg_eq edges u
  unfold moveStep
  rw [if_pos hd]
  simp only [hfind]
  rw [adj_input_order_eq, hdeg, ← hv]
  by_cases hb1 : t + 1 < s.min_t v
  · rw [if_pos hb1]
    exact Or.inl ⟨hb1, rfl, rfl⟩
  · rw [if_neg hb1]
    by_cases hb2 : t + 1 - s.min_t v < C
    · rw [if_pos hb2]
      by_cases hb3 : w < s.min_w v (t + 1 - s.min_t v)
      · rw [if_pos hb3]
        exact Or.inr ⟨hb1, rfl, Or.inr ⟨rfl, hb2⟩⟩
      · rw [if_neg hb3]
        exact Or.inr ⟨hb1, rfl, Or.inl rfl⟩
    · rw [if_neg hb2]
      exact Or.inr ⟨hb1, rfl, Or.inl rfl⟩

theorem ansUpd_ne {n : Nat} {a : Int × Int} {t w : Int} {u : Nat} (h : u ≠ n) :
    ansUpd n a t w u = a := by
  unfold ansUpd
  rw [if_neg]
  intro hc
  exact h hc.1

/-! ## The bounded-window counterexample graph

`edges0`: 600 parallel edges between nodes 1 and 2, then one edge (1,3), with
`n = 3`.  Leaving node 1 towards node 3 requires the edge index
`600 = t mod 601`, first available at tick `t = 600`; the window `C = 600`
prunes every node-1 state with `t ≥ 600`, so the search never reaches node 3,
although the walk that bounces 1→2→1 three hundred times and then moves to 3
arrives at time 601 with zero waits. -/


theorem getD_append_lt (l l' : List Nat) (k : Nat) (d : Nat) (h : k < l.length) :
    (l ++ l').getD k d = l.getD k d := by
  induction l generalizing k with
  | nil => simp at h
  | cons x xs ih =>
    cases k with
    | zero => rfl
    | succ k' =>
      have : k' < xs.length := by simpa using h
      simpa using ih k' this

theorem getD_replicate (a d : Nat) : ∀ (m k : Nat), k < m →
    (List.replicate m a).getD k d = a := by
  intro m
  induction m with
  | zero => intro k hk; omega
  | succ m ih =>
    intro k hk
    cases k with
    | zero => rfl
    | succ k' =>
      rw [List.replicate_succ]
      simpa using ih k' (by omega)

theorem getD_append_at (l : List Nat) (b d : Nat) :
    (l ++ [b]).getD l.length d = b := by
  induction l with
  | nil => rfl
  | cons x xs ih => simpa using ih

theorem nbrs_cons (e : Nat × Nat) (es : List (Nat × Nat)) (x : Nat) :
    nbrs (e :: es) x = edgeContrib e x ++ nbrs es x := rfl

set_option maxRecDepth 40000 in
theorem nbrs_one : nbrs edges0 1 = List.replicate 600 2 ++ [3] := by decide

set_option maxRecDepth 40000 in
theorem nbrs_two : nbrs edges0 2 = List.replicate 600 1 := by decide

theorem len_nbrs_one : (nbrs edges0 1).length = 601 := by
  rw [nbrs_one, List.length_append, List.length_replicate]
  rfl

theorem len_nbrs_two : (nbrs edges0 2).length = 600 := by
  rw [nbrs_two, List.length_replicate]

theorem deg0_one : 0 < deg edges0 1 := by
  rw [deg_eq, len_nbrs_one]
  omega

theorem deg0_two : 0 < deg edges0 2 := by
  rw [deg_eq, len_nbrs_two]
  omega

theorem getD_nbrs_one_lt {k : Nat} (hk : k < 600) : (nbrs edges0 1).getD k 0 = 2 := by
  rw [nbrs_one]
  have hlen : k < (List.replicate 600 2).length := by
    rw [List.length_replicate]
    exact hk
  rw [getD_append_lt _ _ _ _ hlen]
  exact getD_replicate 2 0 600 k hk

theorem getD_append_at_of (l : List Nat) (b d : Nat) {k : Nat} (h : l.length = k) :
    (l ++ [b]).getD k d = b := by
  subst h
  exact getD_append_at l b d

theorem getD_nbrs_one_top : (nbrs edges0 1).getD 600 0 = 3 := by
  rw [nbrs_one]
  exact getD_append_at_of _ 3 0 (List.length_replicate 600 2)

theorem getD_nbrs_two {k : Nat} (hk : k < 600) : (nbrs edges0 2).getD k 0 = 1 := by
  rw [nbrs_two]
  exact getD_replicate 1 0 600 k hk

/-- The move successor from node 1 at time `0 ≤ t ≤ 599` is node 2. -/
theorem move_target_one {t : Int} (h0 : 0 ≤ t) (h1 : t ≤ 599) :
    (nbrs edges0 1).getD (t % ((nbrs edges0 1).length : Int)).toNat 0 = 2 := by
  rw [len_nbrs_one]
  have hmod : t % ((601 : Nat) : Int) = t := Int.emod_eq_of_lt h0 (by omega)
  rw [hmod]
  exact getD_nbrs_one_lt (k := t.toNat) (by omega)

/-- The move successor from node 1 at time `t = 600` is node 3. -/
theorem move_target_one_top :
    (nbrs edges0 1).getD ((600 : Int) % ((nbrs edges0 1).length : Int)).toNat 0 = 3 := by
  rw [len_nbrs_one]
  have hmod : (600 : Int) % ((601 : Nat) : Int) = 600 :=
    Int.emod_eq_of_lt (by omega) (by omega)
  rw [hmod]
  exact getD_nbrs_one_top

/-- The move successor from node 2 at any time is node 1. -/
theorem move_target_two (t : Int) :
    (nbrs edges0 2).getD (t % ((nbrs edges0 2).length : Int)).toNat 0 = 1 := by
  rw [len_nbrs_two]
  have hlt : t % ((600 : Nat) : Int) < 600 := Int.emod_lt_of_pos t (by omega)
  have hge : 0 ≤ t % ((600 : Nat) : Int) := Int.emod_nonneg t (by omega)
  exact getD_nbrs_two (k := (t % ((600 : Nat) : Int)).toNat) (by omega)

theorem wrunFrom_nil (edges : List (Nat × Nat)) (s : St) :
    wrunFrom edges s [] = some s := rfl

theorem wrunFrom_cons (edges : List (Nat × Nat)) (s : St) (a : Act) (l : List Act) :
    wrunFrom edges s (a :: l) =
      (wstep edges s a).bind (fun s2 => wrunFrom edges s2 l) := by
  show List.foldl _ ((some s).bind (fun s2 => wstep edges s2 a)) l = _
  cases h : wstep edges s a with
  | none =>
    have h2 : (some s).bind (fun s2 => wstep edges s2 a) = none := h
    rw [h2]
    show List.foldl _ none l = none
    exact wrunFrom_none edges l
  | some s2 =>
    have h2 : (some s).bind (fun s3 => wstep edges s3 a) = some s2 := h
    rw [h2]
    rfl

theorem wrun_append2 (edges : List (Nat × Nat)) (l1 l2 : List Act) :
    wrun edges (l1 ++ l2) = (wrun edges l1).bind (fun s => wrunFrom edges s l2) := by
  show List.foldl _ _ (l1 ++ l2) = _
  rw [List.foldl_append]
  cases h : wrun edges l1 with
  | none =>
    have h2 : List.foldl (fun os a => os.bind fun s => wstep edges s a)
        (some ⟨0, 0, 1⟩) l1 = none := h
    rw [h2]
    exact wrunFrom_none edges l2
  | some s =>
    have h2 : List.foldl (fun os a => os.bind fun s => wstep edges s a)
        (some ⟨0, 0, 1⟩) l1 = some s := h
    rw [h2]
    rfl

theorem wstep_move_one {t : Int} (h0 : 0 ≤ t) (h1 : t ≤ 599) (w : Int) :
    wstep edges0 ⟨t, w, 1⟩ Act.move = some ⟨t + 1, w, 2⟩ := by
  have hlen : 0 < (nbrs edges0 1).length := by rw [len_nbrs_one]; omega
  show (if 0 < (nbrs edges0 1).length then
      some (⟨t + 1, w,
        (nbrs edges0 1).getD (t % ((nbrs edges0 1).length : Int)).toNat 0⟩ : St)
    else none) = some (⟨t + 1, w, 2⟩ : St)
  rw [if_pos hlen, move_target_one h0 h1]

theorem wstep_move_one_top (w : Int) :
    wstep edges0 ⟨600, w, 1⟩ Act.move = some ⟨601, w, 3⟩ := by
  have hlen : 0 < (nbrs edges0 1).length := by rw [len_nbrs_one]; omega
  show (if 0 < (nbrs edges0 1).length then
      some (⟨(600 : Int) + 1, w,
        (nbrs edges0 1).getD ((600 : Int) % ((nbrs edges0 1).length : Int)).toNat 0⟩ : St)
    else none) = some (⟨601, w, 3⟩ : St)
  rw [if_pos hlen, move_target_one_top]
  rfl

theorem wstep_move_two (t : Int) (w : Int) :
    wstep edges0 ⟨t, w, 2⟩ Act.move = some ⟨t + 1, w, 1⟩ := by
  have hlen : 0 < (nbrs edges0 2).length := by rw [len_nbrs_two]; omega
  show (if 0 < (nbrs edges0 2).length then
      some (⟨t + 1, w,
        (nbrs edges0 2).getD (t % ((nbrs edges0 2).length : Int)).toNat 0⟩ : St)
    else none) = some (⟨t + 1, w, 1⟩ : St)
  rw [if_pos hlen, move_target_two]

/-- The bounce walk: `2k` moves alternate 1→2→1 with no waiting. -/
theorem wrun_bounce : ∀ k : Nat, k ≤ 300 →
    wrun edges0 (List.replicate (2 * k) .move) = some ⟨((2 * k : Nat) : Int), 0, 1⟩ := by
  intro k
  induction k with
  | zero => intro _; rfl
  | succ k ih =>
    intro hk
    have hk' : k ≤ 300 := by omega
    have hrep : List.replicate (2 * (k + 1)) Act.move
        = List.replicate (2 * k) Act.move ++ [Act.move, Act.move] := by
      have h2 : 2 * (k + 1) = 2 * k + 2 := by omega
      rw [h2, List.replicate_add]
      rfl
    rw [hrep, wrun_append2, ih hk']
    have hb1 : ((2 * k : Nat) : Int) ≤ 599 := by
      have : (2 * k : Nat) ≤ 598 := by omega
      omega
    rw [Option.some_bind', wrunFrom_cons, wstep_move_one (by omega) hb1 0,
      Option.some_bind', wrunFrom_cons, wstep_move_two _ 0,
      Option.some_bind', wrunFrom_nil]
    have hcast : ((2 * (k + 1) : Nat) : Int) = ((2 * k : Nat) : Int) + 1 + 1 := by
      push_cast
      ring
    rw [hcast]

/-- Node 3 is reachable in the counterexample graph: 601 moves arrive at time
601 with zero total wait. -/
theorem wrun_reach3 : wrun edges0 (List.replicate 601 .move) = some ⟨601, 0, 3⟩ := by
  have hrep : List.replicate 601 Act.move
      = List.replicate 600 Act.move ++ [Act.move] := by
    rw [← List.replicate_succ']
  rw [hrep, wrun_append2]
  have h600 : wrun edges0 (List.replicate 600 Act.move) = some ⟨600, 0, 1⟩ := by
    have h := wrun_bounce 300 (le_refl 300)
    norm_num at h
    exact h
  rw [h600, Option.some_bind', wrunFrom_cons, wstep_move_one_top 0,
    Option.some_bind', wrunFrom_nil]


theorem pqBound_mk {t w : Int} {u : Nat} (h0 : 0 ≤ t)
    (hcase : (u = 1 ∧ t ≤ 599) ∨ (u = 2 ∧ 1 ≤ t ∧ t ≤ 600)) :
    0 ≤ (⟨t, w, u⟩ : St).total_time ∧
      (((⟨t, w, u⟩ : St).u = 1 ∧ (⟨t, w, u⟩ : St).total_time ≤ 599) ∨
       ((⟨t, w, u⟩ : St).u = 2 ∧ 1 ≤ (⟨t, w, u⟩ : St).total_time ∧
         (⟨t, w, u⟩ : St).total_time ≤ 600)) :=
  ⟨h0, hcase⟩

theorem InvG_init : InvG initSS := by
  refine ⟨rfl, rfl, rfl, Or.inl rfl, ?_, ?_⟩
  · intro st hst
    simp only [initSS, List.mem_singleton] at hst
    subst hst
    exact pqBound_mk (le_refl 0) (Or.inl ⟨rfl, by norm_num⟩)
  · intro _ st hst
    simp only [initSS, List.mem_singleton] at hst
    exact hst

theorem INF_big : (601 : Int) < INF := by norm_num [INF]

set_option maxRecDepth 8000 in
theorem InvG_step {s : SS} (h : InvG s) : InvG (step 3 edges0 s) := by
  obtain ⟨hans, hm1, hm3, hm2, hpq, hcond⟩ := h
  unfold step
  cases hpop : popMin s.pq with
  | none =>
    unfold stepA
    rw [hpop]
    exact ⟨hans, hm1, hm3, hm2, hpq, hcond⟩
  | some pr =>
    obtain ⟨st, rest⟩ := pr
    have hstmem := popMin_mem hpop
    have hsub := popMin_rest_subset hpop
    have hstp := hpq st hstmem
    have ht0 : 0 ≤ st.total_time := hstp.1
    have hu3 : st.u ≠ 3 := by
      rcases hstp.2 with ⟨hu, _⟩ | ⟨hu, _⟩ <;> omega
    have hupd : ansUpd 3 s.ans st.total_time st.wait_time st.u = s.ans :=
      ansUpd_ne hu3
    have hInvRest : InvG { s with pq := rest } :=
      ⟨hans, hm1, hm3, hm2, fun x hx => hpq x (hsub x hx),
        fun hI x hx => hcond hI x (hsub x hx)⟩
    rcases stepA_cases 3 edges0 s hpop with ⟨heq, _⟩ | ⟨heq, _⟩ | ⟨heq, _⟩ | ⟨heq, _⟩
    · rw [heq]; exact hInvRest
    · rw [heq]; exact hInvRest
    · rw [heq]
      refine ⟨?_, hm1, hm3, hm2, fun x hx => hpq x (hsub x hx),
        fun hI x hx => hcond hI x (hsub x hx)⟩
      show ansUpd 3 s.ans st.total_time st.wait_time st.u = (INF, INF)
      rw [hupd]
      exact hans
    · rw [heq]
      set s1 : SS :=
        { s with pq := rest,
                 ans := ansUpd 3 s.ans st.total_time st.wait_time st.u } with hs1
      have hs1ans : s1.ans = (INF, INF) := by
        show ansUpd 3 s.ans st.total_time st.wait_time st.u = (INF, INF)
        rw [hupd]
        exact hans
      have hs1mt : s1.min_t = s.min_t := rfl
      have hs1pq : s1.pq = rest := rfl
      set s2 : SS := (waitStep st.total_time st.wait_time st.u
        (st.total_time - s.min_t st.u) s1).1 with hs2def
      have hw := waitStep_shape st.total_time st.wait_time st.u
        (st.total_time - s.min_t st.u) s1
      have hs2mt : s2.min_t = s.min_t := hw.1
      have hs2ans : s2.ans = (INF, INF) := by rw [hw.2.1]; exact hs1ans
      have hwpq := waitStep_pq st.total_time st.wait_time st.u
        (st.total_time - s.min_t st.u) s1
      have hs2mem : ∀ x ∈ s2.pq, x ∈ rest ∨
          (x = ⟨st.total_time + 1, st.wait_time + 1, st.u⟩ ∧
            st.total_time + 1 < s.min_t st.u + C) := by
        rcases hwpq with hsame | ⟨hpush, hguard⟩
        · intro x hx
          rw [← hs2def] at hsame
          rw [hsame, hs1pq] at hx
          exact Or.inl hx
        · intro x hx
          rw [← hs2def] at hpush
          rw [hpush] at hx
          rcases List.mem_cons.mp hx with rfl | hx'
          · exact Or.inr ⟨rfl, by rw [hs1mt] at hguard; exact hguard⟩
          · rw [hs1pq] at hx'
            exact Or.inl hx'
      rw [tagAccess_fst, expandStep_fst, ← hs2def]
      have hmvans := (moveStep_shape edges0 st.total_time st.wait_time st.u s2).1
      -- case split on the popped node
      rcases hstp.2 with ⟨hu1, htle⟩ | ⟨hu2, ht1, htle⟩
      · -- popped node 1
        have hd : 0 < deg edges0 st.u := by rw [hu1]; exact deg0_one
        have hv : (2 : Nat) = (nbrs edges0 st.u).getD
            (st.total_time % ((nbrs edges0 st.u).length : Int)).toNat 0 := by
          rw [hu1]
          exact (move_target_one ht0 htle).symm
        have hmtu : s.min_t st.u = 0 := by rw [hu1]; exact hm1
        rcases moveStep_pq edges0 st.total_time st.wait_time st.u s2 hd hv
          with ⟨hb1, hpq3, hmt3⟩ | ⟨hb1, hmt3, hpq3⟩
        · -- reset branch: fires only from the seed (min_t 2 = INF)
          rw [hs2mt] at hb1
          rcases hm2 with hm2I | hm21
          · have hseed : st = ⟨0, 0, 1⟩ := hcond hm2I st hstmem
            have htt : st.total_time = 0 := by rw [hseed]
            have hww : st.wait_time = 0 := by rw [hseed]
            refine ⟨?_, ?_, ?_, ?_, ?_, ?_⟩
            · rw [hmvans]; exact hs2ans
            · rw [hmt3, hs2mt]
              show updT s.min_t 2 (st.total_time + 1) 1 = 0
              unfold updT
              rw [if_neg (by omega)]
              exact hm1
            · rw [hmt3, hs2mt]
              show updT s.min_t 2 (st.total_time + 1) 3 = INF
              unfold updT
              rw [if_neg (by omega)]
              exact hm3
            · right
              rw [hmt3, hs2mt]
              show updT s.min_t 2 (st.total_time + 1) 2 = 1
              unfold updT
              rw [if_pos rfl, htt]
              omega
            · intro x hx
              rw [hpq3] at hx
              rcases List.mem_cons.mp hx with rfl | hx'
              · exact pqBound_mk (by omega) (Or.inr ⟨rfl, by omega, by omega⟩)
              · rcases hs2mem x hx' with hxr | ⟨hxe, hxg⟩
                · exact hpq x (hsub x hxr)
                · rw [hxe]
                  exact pqBound_mk (by omega)
                    (Or.inl ⟨hu1, by rw [hmtu] at hxg; have hC : C = 600 := rfl; omega⟩)
            · intro hI
              exfalso
              rw [hmt3, hs2mt] at hI
              have : updT s.min_t 2 (st.total_time + 1) 2 = st.total_time + 1 := by
                unfold updT
                rw [if_pos rfl]
              rw [this, htt] at hI
              have := INF_big
              omega
          · -- min_t 2 = 1 : reset cannot fire from node 1 at time ≥ 0
            exfalso
            rw [hm21] at hb1
            omega
        · -- non-reset branch from node 1
          rw [hs2mt] at hb1 hpq3
          have hm2' : s.min_t 2 = 1 := by
            rcases hm2 with hm2I | hm21
            · exfalso
              have hseed : st = ⟨0, 0, 1⟩ := hcond hm2I st hstmem
              have htt : st.total_time = 0 := by rw [hseed]
              rw [hm2I, htt] at hb1
              have := INF_big
              omega
            · exact hm21
          refine ⟨?_, ?_, ?_, ?_, ?_, ?_⟩
          · rw [hmvans]; exact hs2ans
          · rw [hmt3, hs2mt]; exact hm1
          · rw [hmt3, hs2mt]; exact hm3
          · right; rw [hmt3, hs2mt]; exact hm2'
          · intro x hx
            rcases hpq3 with hsame | ⟨hpush, hguard⟩
            · rw [hsame] at hx
              rcases hs2mem x hx with hxr | ⟨hxe, hxg⟩
              · exact hpq x (hsub x hxr)
              · rw [hxe]
                exact pqBound_mk (by omega)
                  (Or.inl ⟨hu1, by rw [hmtu] at hxg; have hC : C = 600 := rfl; omega⟩)
            · rw [hpush] at hx
              rcases List.mem_cons.mp hx with rfl | hx'
              · refine pqBound_mk (by omega) (Or.inr ⟨rfl, by omega, ?_⟩)
                rw [hm2'] at hguard
                have hC : C = 600 := rfl
                omega
              · rcases hs2mem x hx' with hxr | ⟨hxe, hxg⟩
                · exact hpq x (hsub x hxr)
                · rw [hxe]
                  exact pqBound_mk (by omega)
                    (Or.inl ⟨hu1, by rw [hmtu] at hxg; have hC : C = 600 := rfl; omega⟩)
          · intro hI
            exfalso
            rw [hmt3, hs2mt] at hI
            rw [hm2'] at hI
            have := INF_big
            omega
      · -- popped node 2
        have hm2' : s.min_t 2 = 1 := by
          rcases hm2 with hm2I | hm21
          · exfalso
            have hseed : st = ⟨0, 0, 1⟩ := hcond hm2I st hstmem
            have huu : st.u = 1 := by rw [hseed]
            omega
          · exact hm21
        have hd : 0 < deg edges0 st.u := by rw [hu2]; exact deg0_two
        have hv : (1 : Nat) = (nbrs edges0 st.u).getD
            (st.total_time % ((nbrs edges0 st.u).length : Int)).toNat 0 := by
          rw [hu2]
          exact (move_target_two st.total_time).symm
        have hmtu : s.min_t st.u = 1 := by rw [hu2]; exact hm2'
        rcases moveStep_pq edges0 st.total_time st.wait_time st.u s2 hd hv
          with ⟨hb1, hpq3, hmt3⟩ | ⟨hb1, hmt3, hpq3⟩
        · -- reset towards node 1 is impossible (min_t 1 = 0 ≤ t+1)
          exfalso
          rw [hs2mt, hm1] at hb1
          omega
        · rw [hs2mt] at hb1 hpq3
          refine ⟨?_, ?_, ?_, ?_, ?_, ?_⟩
          · rw [hmvans]; exact hs2ans
          · rw [hmt3, hs2mt]; exact hm1
          · rw [hmt3, hs2mt]; exact hm3
          · right; rw [hmt3, hs2mt]; exact hm2'
          · intro x hx
            rcases hpq3 with hsame | ⟨hpush, hguard⟩
            · rw [hsame] at hx
              rcases hs2mem x hx with hxr | ⟨hxe, hxg⟩
              · exact hpq x (hsub x hxr)
              · rw [hxe]
                refine pqBound_mk (by omega) (Or.inr ⟨hu2, by omega, ?_⟩)
                rw [hmtu] at hxg
                have hC : C = 600 := rfl
                omega
            · rw [hpush] at hx
              rcases List.mem_cons.mp hx with rfl | hx'
              · refine pqBound_mk (by omega) (Or.inl ⟨rfl, ?_⟩)
                rw [hm1] at hguard
                have hC : C = 600 := rfl
                omega
              · rcases hs2mem x hx' with hxr | ⟨hxe, hxg⟩
                · exact hpq x (hsub x hxr)
                · rw [hxe]
                  refine pqBound_mk (by omega) (Or.inr ⟨hu2, by omega, ?_⟩)
                  rw [hmtu] at hxg
                  have hC : C = 600 := rfl
                  omega
          · intro hI
            exfalso
            rw [hmt3, hs2mt, hm2'] at hI
            have := INF_big
            omega

theorem InvG_runLoop : ∀ (k : Nat) (s : SS), InvG s → InvG (runLoop 3 edges0 k s) := by
  intro k
  induction k with
  | zero => intro s h; exact h
  | succ k ih =>
    intro s h
    unfold runLoop
    split
    · exact h
    · exact ih _ (InvG_step h)

/-- On the counterexample graph the program prints the unreachable sentinel. -/
theorem output_edges0 : output 3 edges0 = (INF, INF) := by
  rw [output_def]
  exact (InvG_runLoop (fuelBound 3) initSS InvG_init).1

/-! ## Remaining helper lemmas for the claim theorems -/

/-- With no edges every walk stays at node 1. -/
theorem wrun_no_edges : ∀ (acts : List Act) (s st : St),
    wrunFrom [] s acts = some st → st.u = s.u := by
  intro acts
  induction acts with
  | nil =>
    intro s st h
    simp only [wrunFrom, List.foldl_nil, Option.some.injEq] at h
    rw [← h]
  | cons a as ih =>
    intro s st h
    rw [wrunFrom_cons] at h
    cases a with
    | wait =>
      have hstep : wstep [] s Act.wait
          = some ⟨s.total_time + 1, s.wait_time + 1, s.u⟩ := rfl
      rw [hstep, Option.some_bind'] at h
      exact ih ⟨s.total_time + 1, s.wait_time + 1, s.u⟩ st h
    | move =>
      have hstep : wstep [] s Act.move = none := by
        simp [wstep, nbrs]
      rw [hstep] at h
      simp at h

theorem unreachable_empty : ¬ Reachable ([] : List (Nat × Nat)) 2 := by
  rintro ⟨st, ⟨acts, hr⟩, hu⟩
  have := wrun_no_edges acts ⟨0, 0, 1⟩ st hr
  rw [hu] at this
  simp at this

/-- Once the answer is `(0,0)` it never changes (nothing is lexicographically
smaller among frontier states, whose times and waits are nonnegative). -/
theorem ans_stays {n : Nat} {edges : List (Nat × Nat)} (hwf : WFE n edges) :
    ∀ (k : Nat) (s : SS), Inv n edges s → s.ans = (0, 0) →
      (runLoop n edges k s).ans = (0, 0) := by
  intro k
  induction k with
  | zero => intro s _ h0; exact h0
  | succ k ih =>
    intro s hinv h0
    cases hl : s.pq with
    | nil =>
      rw [runLoop_empty hl]
      exact h0
    | cons x l =>
      have hne : s.pq ≠ [] := by simp [hl]
      rw [runLoop_succ hne]
      refine ih _ (Inv_step hwf hinv) ?_
      rcases @step_ans n edges s with hsame | ⟨st, hmem, _, hval, hlex⟩
      · rw [hsame]; exact h0
      · exfalso
        obtain ⟨_, _, hw0, hwt, _, _⟩ := hinv.1 st hmem
        rw [h0] at hlex
        simp at hlex
        omega

theorem initSS_ne_empty : initSS.pq ≠ [] := by simp [initSS]

/-- The answer component of a full expansion step equals the answer of the
state it expands. -/
theorem expand_ans (edges : List (Nat × Nat)) (t w : Int) (u : Nat) (dt : Int)
    (s : SS) :
    (tagAccess (u, dt) (expandStep edges t w u dt s)).1.ans = s.ans := by
  show (moveStep edges t w u (waitStep t w u dt s).1).1.ans = s.ans
  rw [(moveStep_shape edges t w u (waitStep t w u dt s).1).1]
  rw [(waitStep_shape t w u dt s).2.1]

/-- The first iteration from the initial state records `(0,0)` as the answer
when the source is the target (`n = 1`). -/
theorem first_step_ans (edges : List (Nat × Nat)) :
    (step 1 edges initSS).ans = (0, 0) := by
  have hpop : popMin initSS.pq = some (⟨0, 0, 1⟩, []) := rfl
  unfold step
  rcases stepA_cases 1 edges initSS hpop with ⟨heq, hc⟩ | ⟨heq, hc⟩ | ⟨heq, hc⟩ | ⟨heq, hc⟩
  · exact absurd hc (by decide)
  · exact absurd hc.2.2.2 (by decide)
  · exact absurd hc.2.2.2.2 (by decide)
  · rw [heq, expand_ans]
    decide

/-! ## Claim theorems -/

/-- C1 (counterexample): on the graph with 600 parallel (1,2) edges followed
by (1,3), node 3 is reachable (601 moves, zero waits), the input is
well-formed, and yet the program's printed pair is not the lexicographically
minimal pair over all walks — the bounded window `C = 600` prunes every state
that could take the edge to node 3. -/
theorem C1_counterexample :
    WFE 3 edges0 ∧ Reachable edges0 3 ∧
      ¬ IsLexMinPair edges0 3 (output 3 edges0) := by
  refine ⟨?_, ⟨⟨601, 0, 3⟩, ⟨List.replicate 601 .move, wrun_reach3⟩, rfl⟩, ?_⟩
  · intro e he
    unfold edges0 at he
    rcases List.mem_append.mp he with hrep | hone
    · have := List.eq_of_mem_replicate hrep
      rw [this]
      norm_num
    · simp at hone
      rw [hone]
      norm_num
  · rintro ⟨-, hall⟩
    have hle := hall ⟨601, 0, 3⟩ ⟨List.replicate 601 .move, wrun_reach3⟩ rfl
    rw [output_edges0] at hle
    have := INF_big
    rcases hle with hlt | ⟨heq, -⟩
    · simp at hlt
      omega
    · simp at heq
      omega

/-- C1 (amended): whenever the program prints a pair other than the sentinel
`(INF, INF)`, that pair is realised by an actual wait/move walk from node 1 to
node `n`; the bounded window may cause the printed pair to be
lexicographically larger than the true minimum, or the sentinel even when the
target is reachable. -/
theorem C1_amended {n : Nat} {edges : List (Nat × Nat)} (hwf : WFE n edges)
    (hn : 1 ≤ n) (hne : output n edges ≠ (INF, INF)) :
    ∃ st, ReachSt edges st ∧ st.u = n ∧
      st.total_time = (output n edges).1 ∧ st.wait_time = (output n edges).2 :=
  output_sound hwf hn hne

set_option maxRecDepth 10000 in
theorem C1_amended_witness :
    WFE 3 triE ∧ 1 ≤ 3 ∧ output 3 triE ≠ (INF, INF) ∧
      (∃ st, ReachSt triE st ∧ st.u = 3 ∧
        st.total_time = (output 3 triE).1 ∧ st.wait_time = (output 3 triE).2) :=
  ⟨by decide, by norm_num, by decide,
    C1_amended (by decide) (by norm_num) (by decide)⟩

/-- C2: on a well-formed graph whose target is unreachable by any wait/move
walk, the loop empties the frontier (and the state then stays fixed) and the
program prints the sentinel `(INF, INF)`. -/
theorem C2_unreachable_sentinel {n : Nat} {edges : List (Nat × Nat)}
    (hwf : WFE n edges) (hn : 1 ≤ n) (hunreach : ¬ Reachable edges n) :
    (∃ k, (iter n edges k).pq = [] ∧
      ∀ j, k ≤ j → iter n edges j = iter n edges k) ∧
    output n edges = (INF, INF) := by
  constructor
  · exact search_terminates hwf hn
  · by_contra hne
    obtain ⟨st, hr, hu, -, -⟩ := output_sound hwf hn hne
    exact hunreach ⟨st, hr, hu⟩

theorem C2_witness :
    (WFE 2 [] ∧ 1 ≤ 2 ∧ ¬ Reachable [] 2) ∧
      ((∃ k, (iter 2 [] k).pq = [] ∧
        ∀ j, k ≤ j → iter 2 [] j = iter 2 [] k) ∧
       output 2 [] = (INF, INF)) :=
  ⟨⟨by decide, by norm_num, unreachable_empty⟩,
    C2_unreachable_sentinel (by decide) (by norm_num) unreachable_empty⟩

/-- C3: with `deg(u) > 0` the move option generates exactly one successor —
the linear search over the 1-indexed edge list finds precisely the edge with
index `(t mod deg u) + 1`, whose endpoint is entry `t mod deg u` of the
input-order incident list — so the new frontier is the old one or that single
successor prepended; with `deg(u) = 0` the move option does nothing. -/
theorem C3_move_successor (edges : List (Nat × Nat)) (t w : Int) (u : Nat)
    (s : SS) :
    (0 < deg edges u →
      (adj edges u).find? (fun e => ((e.2 : Int) == t % (deg edges u : Int) + 1))
        = some ((adj_input_order edges u).getD (t % (deg edges u : Int)).toNat 0,
                1 + (t % (deg edges u : Int)).toNat) ∧
      ((moveStep edges t w u s).1.pq = s.pq ∨
        (moveStep edges t w u s).1.pq =
          ⟨t + 1, w,
            (adj_input_order edges u).getD (t % (deg edges u : Int)).toNat 0⟩
            :: s.pq)) ∧
    (deg edges u = 0 → moveStep edges t w u s = (s, [])) := by
  constructor
  · intro hd
    refine ⟨adj_find_eq edges u t hd, ?_⟩
    have hshape := (moveStep_shape edges t w u s).2.2
    rcases hshape with ⟨hpq, -⟩ | ⟨-, hpq, -⟩
    · exact Or.inl hpq
    · right
      rw [hpq, adj_input_order_eq, deg_eq]
  · intro hd0
    unfold moveStep
    rw [if_neg (by omega)]

theorem C3_witness :
    0 < deg triE 1 ∧
      ((adj triE 1).find? (fun e => ((e.2 : Int) == (0 : Int) % (deg triE 1 : Int) + 1))
        = some ((adj_input_order triE 1).getD (((0 : Int) % (deg triE 1 : Int)).toNat) 0,
                1 + (((0 : Int) % (deg triE 1 : Int)).toNat)) ∧
      ((moveStep triE 0 0 1 initSS).1.pq = initSS.pq ∨
        (moveStep triE 0 0 1 initSS).1.pq =
          ⟨(0 : Int) + 1, 0,
            (adj_input_order triE 1).getD (((0 : Int) % (deg triE 1 : Int)).toNat) 0⟩
            :: initSS.pq)) :=
  ⟨by decide, (C3_move_successor triE 0 0 1 initSS).1 (by decide)⟩

/-- C4: a successor is enqueued only when its offset is `< C` and its wait
strictly improves the recorded slot, which is then updated; when the
successor's time is strictly below `min_t v`, the node's minimum time is
reset to it, slot 0 is set, the state is enqueued, and no other slot of that
node is touched (stale entries are only lazily invalidated). -/
theorem C4_accept (edges : List (Nat × Nat)) (t w dt : Int) (u v : Nat) (s : SS)
    (hdt : dt = t - s.min_t u) (hd : 0 < deg edges u)
    (hv : v = (nbrs edges u).getD (t % ((nbrs edges u).length : Int)).toNat 0) :
    (if dt + 1 < C ∧ w + 1 < s.min_w u (dt + 1)
      then (waitStep t w u dt s).1.pq = ⟨t + 1, w + 1, u⟩ :: s.pq ∧
        (waitStep t w u dt s).1.min_w u (dt + 1) = w + 1
      else (waitStep t w u dt s).1 = s) ∧
    (t + 1 < s.min_t v →
      (moveStep edges t w u s).1.min_t v = t + 1 ∧
      (moveStep edges t w u s).1.min_w v 0 = w ∧
      (moveStep edges t w u s).1.pq = ⟨t + 1, w, v⟩ :: s.pq ∧
      (∀ d : Int, d ≠ 0 → (moveStep edges t w u s).1.min_w v d = s.min_w v d)) ∧
    (¬ t + 1 < s.min_t v →
      (if t + 1 - s.min_t v < C ∧ w < s.min_w v (t + 1 - s.min_t v)
        then (moveStep edges t w u s).1.pq = ⟨t + 1, w, v⟩ :: s.pq ∧
          (moveStep edges t w u s).1.min_w v (t + 1 - s.min_t v) = w
        else (moveStep edges t w u s).1 = s)) := by
  have hfind := adj_find_eq edges u t hd
  have hdeg : deg edges u = (nbrs edges u).length := deg_eq edges u
  refine ⟨?_, ?_, ?_⟩
  · by_cases hA : dt + 1 < C ∧ w + 1 < s.min_w u (dt + 1)
    · rw [if_pos hA]
      have hred : (waitStep t w u dt s).1
          = { s with pq := ⟨t + 1, w + 1, u⟩ :: s.pq,
                     min_w := updW s.min_w u (dt + 1) (w + 1) } := by
        unfold waitStep
        rw [if_pos (show t + 1 < s.min_t u + C by omega), if_pos hA.2]
      rw [hred]
      refine ⟨rfl, ?_⟩
      show updW s.min_w u (dt + 1) (w + 1) u (dt + 1) = w + 1
      unfold updW
      rw [if_pos ⟨rfl, rfl⟩]
    · rw [if_neg hA]
      unfold waitStep
      by_cases h1 : t + 1 < s.min_t u + C
      · rw [if_pos h1]
        have h2 : ¬ w + 1 < s.min_w u (dt + 1) := fun hc => hA ⟨by omega, hc⟩
        rw [if_neg h2]
      · rw [if_neg h1]
  · intro hb1
    unfold moveStep
    rw [if_pos hd]
    simp only [hfind]
    rw [adj_input_order_eq, hdeg, ← hv, if_pos hb1]
    refine ⟨?_, ?_, rfl, ?_⟩
    · show updT s.min_t v (t + 1) v = t + 1
      unfold updT
      rw [if_pos rfl]
    · show updW s.min_w v 0 w v 0 = w
      unfold updW
      rw [if_pos ⟨rfl, rfl⟩]
    · intro d hd0
      show updW s.min_w v 0 w v d = s.min_w v d
      unfold updW
      rw [if_neg (fun hc => hd0 hc.2)]
  · intro hb1
    unfold moveStep
    rw [if_pos hd]
    simp only [hfind]
    rw [adj_input_order_eq, hdeg, ← hv, if_neg hb1]
    split
    · next hcond =>
      rw [if_pos hcond.1, if_pos hcond.2]
      refine ⟨rfl, ?_⟩
      show updW s.min_w v (t + 1 - s.min_t v) w v (t + 1 - s.min_t v) = w
      unfold updW
      rw [if_pos ⟨rfl, rfl⟩]
    · next hcond =>
      push_neg at hcond
      by_cases hlt : t + 1 - s.min_t v < C
      · rw [if_pos hlt, if_neg (by have := hcond hlt; omega)]
      · rw [if_neg hlt]

theorem C4_witness :
    ((0 : Int) = 0 - initSS.min_t 1 ∧ 0 < deg triE 1 ∧
      (2 : Nat) = (nbrs triE 1).getD
        ((0 : Int) % ((nbrs triE 1).length : Int)).toNat 0) ∧
    ((if (0 : Int) + 1 < C ∧ (0 : Int) + 1 < initSS.min_w 1 ((0 : Int) + 1)
      then (waitStep 0 0 1 0 initSS).1.pq = ⟨1, 1, 1⟩ :: initSS.pq ∧
        (waitStep 0 0 1 0 initSS).1.min_w 1 ((0 : Int) + 1) = 1
      else (waitStep 0 0 1 0 initSS).1 = initSS) ∧
    ((0 : Int) + 1 < initSS.min_t 2 →
      (moveStep triE 0 0 1 initSS).1.min_t 2 = 1 ∧
      (moveStep triE 0 0 1 initSS).1.min_w 2 0 = 0 ∧
      (moveStep triE 0 0 1 initSS).1.pq = ⟨1, 0, 2⟩ :: initSS.pq ∧
      (∀ d : Int, d ≠ 0 → (moveStep triE 0 0 1 initSS).1.min_w 2 d
        = initSS.min_w 2 d)) ∧
    (¬ (0 : Int) + 1 < initSS.min_t 2 →
      (if (0 : Int) + 1 - initSS.min_t 2 < C ∧
          (0 : Int) < initSS.min_w 2 ((0 : Int) + 1 - initSS.min_t 2)
        then (moveStep triE 0 0 1 initSS).1.pq = ⟨1, 0, 2⟩ :: initSS.pq ∧
          (moveStep triE 0 0 1 initSS).1.min_w 2 ((0 : Int) + 1 - initSS.min_t 2) = 0
        else (moveStep triE 0 0 1 initSS).1 = initSS))) :=
  ⟨⟨by decide, by decide, by decide⟩,
    C4_accept triE 0 0 0 1 2 initSS (by decide) (by decide) (by decide)⟩

/-- C5: the tentative answer is replaced only by a popped target state that is
lexicographically smaller; a popped state whose time exceeds the (possibly
just updated) answer time is discarded without generating successors; a
popped state whose time does not exceed it is expanded through the wait and
move options. -/
theorem C5_early_exit (n : Nat) (edges : List (Nat × Nat)) (s : SS) {st : St}
    {rest : List St} (hpop : popMin s.pq = some (st, rest))
    (hg1 : ¬ s.min_t st.u = INF) (hg2 : ¬ s.min_t st.u + C < st.total_time)
    (hg3 : ¬ C ≤ st.total_time - s.min_t st.u)
    (hg4 : ¬ s.min_w st.u (st.total_time - s.min_t st.u) < st.wait_time) :
    (ansUpd n s.ans st.total_time st.wait_time st.u ≠ s.ans →
      st.u = n ∧
      (st.total_time < s.ans.1 ∨
        (st.total_time = s.ans.1 ∧ st.wait_time < s.ans.2)) ∧
      ansUpd n s.ans st.total_time st.wait_time st.u
        = (st.total_time, st.wait_time)) ∧
    ((ansUpd n s.ans st.total_time st.wait_time st.u).1 < st.total_time →
      stepA n edges s =
        ({ s with pq := rest,
                  ans := ansUpd n s.ans st.total_time st.wait_time st.u },
          [(st.u, st.total_time - s.min_t st.u)])) ∧
    (¬ (ansUpd n s.ans st.total_time st.wait_time st.u).1 < st.total_time →
      stepA n edges s =
        tagAccess (st.u, st.total_time - s.min_t st.u)
          (expandStep edges st.total_time st.wait_time st.u
            (st.total_time - s.min_t st.u)
            { s with pq := rest,
                     ans := ansUpd n s.ans st.total_time st.wait_time st.u })) := by
  refine ⟨?_, ?_, ?_⟩
  · intro hne
    by_cases hcond : st.u = n ∧ (st.total_time < s.ans.1 ∨
        (st.total_time = s.ans.1 ∧ st.wait_time < s.ans.2))
    · refine ⟨hcond.1, hcond.2, ?_⟩
      unfold ansUpd
      rw [if_pos hcond]
    · exfalso
      apply hne
      unfold ansUpd
      rw [if_neg hcond]
  · intro hlt
    rcases stepA_cases n edges s hpop with ⟨-, hc⟩ | ⟨-, hc⟩ | ⟨heq, -⟩ | ⟨-, hc⟩
    · exfalso
      rcases hc with h | h | h
      · exact hg1 h
      · exact hg2 h
      · exact hg3 h
    · exact absurd hc.2.2.2 hg4
    · exact heq
    · exact absurd hlt hc.2.2.2.2
  · intro hge
    rcases stepA_cases n edges s hpop with ⟨-, hc⟩ | ⟨-, hc⟩ | ⟨-, hc⟩ | ⟨heq, -⟩
    · exfalso
      rcases hc with h | h | h
      · exact hg1 h
      · exact hg2 h
      · exact hg3 h
    · exact absurd hc.2.2.2 hg4
    · exact absurd hc.2.2.2.2 hge
    · exact heq

theorem C5_witness :
    (popMin s5w.pq = some (⟨5, 0, 1⟩, []) ∧ ¬ s5w.min_t 1 = INF ∧
      ¬ s5w.min_t 1 + C < 5 ∧ ¬ C ≤ (5 : Int) - s5w.min_t 1 ∧
      ¬ s5w.min_w 1 ((5 : Int) - s5w.min_t 1) < 0) ∧
    ((ansUpd 1 s5w.ans 5 0 1).1 < 5 →
      stepA 1 [] s5w =
        ({ s5w with pq := [], ans := ansUpd 1 s5w.ans 5 0 1 }, [(1, 5 - s5w.min_t 1)])) :=
  ⟨⟨by decide, by decide, by decide, by decide, by decide⟩,
    (@C5_early_exit 1 [] s5w ⟨5, 0, 1⟩ [] (by decide) (by decide) (by decide)
      (by decide) (by decide)).2.1⟩

/-- C6: every state ever on the frontier satisfies
`0 ≤ total_wait_time ≤ total_time`. -/
theorem C6_wait_le_time {n : Nat} {edges : List (Nat × Nat)} (hwf : WFE n edges)
    (hn : 1 ≤ n) :
    ∀ k, ∀ st ∈ (iter n edges k).pq,
      0 ≤ st.wait_time ∧ st.wait_time ≤ st.total_time := by
  intro k st hst
  have h := (Inv_iter hwf hn k).1 st hst
  exact ⟨h.2.2.1, h.2.2.2.1⟩

theorem C6_witness :
    WFE 3 triE ∧ 1 ≤ 3 ∧ (⟨1, 1, 1⟩ : St) ∈ (iter 3 triE 1).pq ∧
      (0 ≤ (⟨1, 1, 1⟩ : St).wait_time ∧
        (⟨1, 1, 1⟩ : St).wait_time ≤ (⟨1, 1, 1⟩ : St).total_time) :=
  ⟨by decide, by norm_num, by decide,
    @C6_wait_le_time 3 triE (by decide) (by norm_num) 1 ⟨1, 1, 1⟩ (by decide)⟩

/-- C7: when the source equals the target (`n = 1`), the program prints
`(0, 0)`. -/
theorem C7_source_target {edges : List (Nat × Nat)} (hwf : WFE 1 edges) :
    output 1 edges = (0, 0) := by
  have hf : fuelBound 1 = (fuelBound 1 - 1) + 1 := by
    unfold fuelBound
    omega
  rw [output_def, hf, runLoop_succ initSS_ne_empty]
  exact ans_stays hwf _ (step 1 edges initSS)
    (Inv_step hwf (Inv_init edges (le_refl 1))) (first_step_ans edges)

theorem C7_witness :
    WFE 1 [(1, 1)] ∧ output 1 [(1, 1)] = (0, 0) :=
  ⟨by decide, C7_source_target (by decide)⟩

set_option maxRecDepth 10000 in
/-- C8: on the triangle graph with edges (1,2), (2,3), (1,3), the time-0 edge
selection at node 1 (degree 2, index `0 mod 2 = 0`) is the edge to node 2 and
the printed result is `(2, 0)`. -/
theorem C8_triangle :
    output 3 [(1, 2), (2, 3), (1, 3)] = (2, 0) ∧
      (adj_input_order [(1, 2), (2, 3), (1, 3)] 1).getD
        (((0 : Int) % (deg [(1, 2), (2, 3), (1, 3)] 1 : Int)).toNat) 0 = 2 := by
  constructor
  · decide
  · decide

/-- C9: the priority-queue loop always terminates on well-formed inputs —
some finite iteration count empties the frontier, and the search state is
fixed from then on. -/
theorem C9_terminates {n : Nat} {edges : List (Nat × Nat)} (hwf : WFE n edges)
    (hn : 1 ≤ n) :
    ∃ k, (iter n edges k).pq = [] ∧
      ∀ j, k ≤ j → iter n edges j = iter n edges k :=
  search_terminates hwf hn

theorem C9_witness :
    WFE 3 triE ∧ 1 ≤ 3 ∧
      (∃ k, (iter 3 triE k).pq = [] ∧
        ∀ j, k ≤ j → iter 3 triE j = iter 3 triE k) :=
  ⟨by decide, by norm_num, C9_terminates (by decide) (by norm_num)⟩

/-- C10: on well-formed inputs every `min_w` access of every iteration uses a
node index in `1..n` and an offset in `[0, C)`. -/
theorem C10_access_bounds {n : Nat} {edges : List (Nat × Nat)} (hwf : WFE n edges)
    (hn : 1 ≤ n) :
    ∀ k, ∀ a ∈ accessesAt n edges k,
      1 ≤ a.1 ∧ a.1 ≤ n ∧ 0 ≤ a.2 ∧ a.2 < C := by
  intro k
  exact stepA_acc_bound hwf (Inv_iter hwf hn k)

theorem C10_witness :
    WFE 3 triE ∧ 1 ≤ 3 ∧ ((1 : Nat), (0 : Int)) ∈ accessesAt 3 triE 0 ∧
      (1 ≤ (1 : Nat) ∧ 1 ≤ 3 ∧ (0 : Int) ≤ 0 ∧ (0 : Int) < C) :=
  ⟨by decide, by norm_num, by decide,
    @C10_access_bounds 3 triE (by decide) (by norm_num) 0 (1, 0) (by decide)⟩

end TwoOneTwoTwoD
